import Mathlib

/-!
Verification development for the tsn-parser repository (src/src/index.ts and
src/performance.ts).  The library parses "TSON" (TypeScript-flavoured JSON)
by stripping comments with two regex passes and handing the remainder to the
host JavaScript evaluator, serialises values through `JSON.stringify` plus a
character-level post-pass that removes key quotes and commas, splits streams
on brace depth, caches parse results in a bounded map, and fans parse jobs
out to worker threads.

The embedding below follows the TypeScript source function by function.
The host JavaScript evaluator invoked by `parse` (line 132 of index.ts:
`eval('(' + processed + ')')`) is modelled by an explicit tokenizer and
recursive-descent reader for the data-literal fragment of JavaScript
expressions that the library is documented to accept: object literals with
identifier or string keys, array literals, single- and double-quoted
strings, integer numerals with optional leading minus, `true`, `false`,
`null`, and trailing commas.  Floating-point literals, template literals,
`\u` escapes and general expressions are outside the modelled fragment;
no claim settled here depends on them.  Numbers are modelled as integers.
-/

namespace TSN

/-- Value model of the host objects the library produces and consumes
(README §data model; spec §3).  Numbers are modelled as integers. -/
inductive Value where
  | vNull : Value
  | vBool : Bool → Value
  | vNum : Int → Value
  | vStr : String → Value
  | vArr : List Value → Value
  | vObj : List (String × Value) → Value

/-- Error object thrown by the library, from `class TSONError` in
index.ts lines 10-20: a message plus optional line, column and position. -/
structure TSONError where
  message : String
  line : Option Nat
  column : Option Nat
  position : Option Nat
deriving DecidableEq, Repr

/-! ## Character classes used by the source's regexes and by the evaluator -/

/-- Whitespace characters skipped by the JavaScript tokenizer. -/
def isWs (c : Char) : Bool :=
  c == ' ' || c == '\n' || c == '\t' || c == '\r'

/-- Identifier start, the class `[A-Za-z_$]` from the stringify post-pass
regex `/[a-zA-Z_$]/` (index.ts line 196) and from JavaScript identifiers,
stated on code points. -/
def identStart (c : Char) : Bool :=
  (97 ≤ c.toNat && c.toNat ≤ 122) || (65 ≤ c.toNat && c.toNat ≤ 90) ||
    c == '_' || c == '$'

/-- Identifier continuation, the class `[A-Za-z0-9_$]`. -/
def identCont (c : Char) : Bool :=
  identStart c || (48 ≤ c.toNat && c.toNat ≤ 57)

/-- Decimal digit. -/
def isDigit (c : Char) : Bool :=
  48 ≤ c.toNat && c.toNat ≤ 57

/-! ## Comment preprocessing, from `preprocessTSON` (index.ts lines 72-102)

The source runs two global regex replacements over the text, each
substituting a run of spaces of the length of the match ("Preserve
positions"): first `/\x2f\x2a[\s\S]*?\x2a\x2f/g` for block comments, then
`/\x2f\x2f.*$/gm` for line comments.  `closeIdx` finds the first
close-delimiter of a block comment, mirroring the non-greedy `[\s\S]*?`;
`nlIdx` finds the end of line, mirroring `.$` under the `m` flag. -/

/-- Index of the first occurrence of the two-character close delimiter
of a block comment, if any. -/
def closeIdx : List Char → Option Nat
  | [] => none
  | c :: rest =>
    if c = '*' ∧ rest.head? = some '/' then some 0
    else (closeIdx rest).map (· + 1)

/-- Line terminator of the JavaScript regex grammar: the characters `.`
does not match and before which a multiline `$` matches — newline,
carriage return, and the U+2028/U+2029 separators. -/
def isLineTerm (c : Char) : Bool :=
  c = '\n' || c = '\r' || c.toNat = 0x2028 || c.toNat = 0x2029

/-- Index of the first line terminator, where a line comment's match
stops. -/
def nlIdx : List Char → Option Nat
  | [] => none
  | c :: rest => if isLineTerm c then some 0 else (nlIdx rest).map (· + 1)

/-- A run of spaces, the replacement text used by both regex passes. -/
def spaces (n : Nat) : List Char :=
  List.replicate n ' '

/-- First regex pass: every block comment becomes spaces of equal length.
A block-comment opener with no closer is left alone, as the regex fails to
match there and the engine moves on by one character.  The fuel argument
makes the recursion structural; one unit ordinarily covers at least one
consumed character, so `length + 1` fuel always suffices. -/
def blockPassF : Nat → List Char → List Char
  | 0, l => l
  | _ + 1, [] => []
  | fuel + 1, c :: rest =>
    if c = '/' ∧ rest.head? = some '*' then
      match closeIdx rest.tail with
      | some j => spaces (j + 4) ++ blockPassF fuel (rest.tail.drop (j + 2))
      | none => c :: blockPassF fuel rest
    else c :: blockPassF fuel rest

/-- Block-comment pass at adequate fuel. -/
def blockPass (l : List Char) : List Char :=
  blockPassF (l.length + 1) l

/-- Second regex pass: from `//` up to (not including) the next newline
becomes spaces of equal length; without a newline the match runs to the
end of the text. -/
def linePassF : Nat → List Char → List Char
  | 0, l => l
  | _ + 1, [] => []
  | fuel + 1, c :: rest =>
    if c = '/' ∧ rest.head? = some '/' then
      match nlIdx rest.tail with
      | some j => spaces (j + 2) ++ linePassF fuel (rest.tail.drop j)
      | none => spaces (rest.tail.length + 2)
    else c :: linePassF fuel rest

/-- Line-comment pass at adequate fuel. -/
def linePass (l : List Char) : List Char :=
  linePassF (l.length + 1) l

/-- Comment preprocessing, from `preprocessTSON` (index.ts lines 72-102):
block-comment pass then line-comment pass.  Position tracking
(`trackPositions`) only records a source map and does not alter the
returned text, so it is not modelled. -/
def preprocessTSON (tsn : String) : String :=
  ⟨linePass (blockPass tsn.data)⟩

/-! ## The host evaluator

`parse` hands the comment-stripped text to the host JavaScript engine
(index.ts line 132, `eval('(' + processed + ')')`).  The engine is modelled
for the data-literal fragment by `tokenize` (the engine's lexer on that
fragment) and `readVal` (expression reading), composed in `evalJS`. -/

/-- Token of the modelled JavaScript data-literal fragment. -/
inductive Tok where
  | lbrace : Tok
  | rbrace : Tok
  | lbrack : Tok
  | rbrack : Tok
  | colon : Tok
  | comma : Tok
  | str : String → Tok
  | num : Int → Tok
  | ident : String → Tok
deriving DecidableEq, Repr

/-- Cooked value of a character escape inside a string literal: the common
named escapes, with every other escaped character standing for itself
(JavaScript's identity escapes).  `\u` hex escapes are outside the
modelled fragment. -/
def escChar (c : Char) : Char :=
  if c = 'n' then '\n'
  else if c = 't' then '\t'
  else if c = 'r' then '\r'
  else if c = 'b' then Char.ofNat 8
  else if c = 'f' then Char.ofNat 12
  else if c = '0' then Char.ofNat 0
  else c

mutual

/-- Scan a string literal body after its opening quote `q`: cooked content
plus the characters after the closing quote.  A raw newline or the end of
input before the closing quote is the engine's unterminated-string error. -/
def lexStr (q : Char) : List Char → Except String (List Char × List Char)
  | [] => .error "Invalid or unexpected token"
  | c :: rest =>
    if c = '\\' then lexStrEsc q rest
    else if c = q then .ok ([], rest)
    else if c = '\n' then .error "Invalid or unexpected token"
    else
      match lexStr q rest with
      | .ok (s, r) => .ok (c :: s, r)
      | .error e => .error e

/-- Scan the character after a backslash inside a string literal. -/
def lexStrEsc (q : Char) : List Char → Except String (List Char × List Char)
  | [] => .error "Invalid or unexpected token"
  | c2 :: rest2 =>
    match lexStr q rest2 with
    | .ok (s, r) => .ok (escChar c2 :: s, r)
    | .error e => .error e

end

/-- Numeric value of a non-empty digit run. -/
def digitsToNat (ds : List Char) : Nat :=
  ds.foldl (fun a c => a * 10 + (c.toNat - 48)) 0

/-- Lexer of the modelled fragment, with structural fuel; each step consumes
at least one character, so `length + 1` fuel always suffices.  A digit run
followed by an identifier character or a dot, and any character outside the
fragment, is a lex error as in the engine. -/
def tokenizeF : Nat → List Char → Except String (List Tok)
  | 0, _ => .error "fuel"
  | _ + 1, [] => .ok []
  | fuel + 1, c :: rest =>
    if isWs c then tokenizeF fuel rest
    else if c = '{' then (tokenizeF fuel rest).map (Tok.lbrace :: ·)
    else if c = '}' then (tokenizeF fuel rest).map (Tok.rbrace :: ·)
    else if c = '[' then (tokenizeF fuel rest).map (Tok.lbrack :: ·)
    else if c = ']' then (tokenizeF fuel rest).map (Tok.rbrack :: ·)
    else if c = ':' then (tokenizeF fuel rest).map (Tok.colon :: ·)
    else if c = ',' then (tokenizeF fuel rest).map (Tok.comma :: ·)
    else if c = '"' ∨ c = '\'' then
      match lexStr c rest with
      | .ok (s, r) => (tokenizeF fuel r).map (Tok.str ⟨s⟩ :: ·)
      | .error e => .error e
    else if c = '-' then
      match rest.head? with
      | some d =>
        if isDigit d then
          let ds := rest.takeWhile isDigit
          let r := rest.dropWhile isDigit
          match r.head? with
          | some x =>
            if identCont x ∨ x = '.' then .error "Invalid or unexpected token"
            else (tokenizeF fuel r).map (Tok.num (-(digitsToNat ds : Int)) :: ·)
          | none => (tokenizeF fuel r).map (Tok.num (-(digitsToNat ds : Int)) :: ·)
        else .error "Unexpected token -"
      | none => .error "Unexpected token -"
    else if isDigit c then
      let ds := c :: rest.takeWhile isDigit
      let r := rest.dropWhile isDigit
      match r.head? with
      | some x =>
        if identCont x ∨ x = '.' then .error "Invalid or unexpected token"
        else (tokenizeF fuel r).map (Tok.num (digitsToNat ds : Int) :: ·)
      | none => (tokenizeF fuel r).map (Tok.num (digitsToNat ds : Int) :: ·)
    else if identStart c then
      let run := rest.takeWhile identCont
      (tokenizeF fuel (rest.dropWhile identCont)).map (Tok.ident ⟨c :: run⟩ :: ·)
    else .error "Unexpected token"

/-- Lexing at adequate fuel. -/
def tokenize (l : List Char) : Except String (List Tok) :=
  tokenizeF (l.length + 1) l

/-- Insertion into an object under construction with JavaScript literal
semantics: a repeated key keeps its first position and takes the new
value (last write wins). -/
def objInsert : List (String × Value) → String → Value → List (String × Value)
  | [], k, v => [(k, v)]
  | (k0, v0) :: rest, k, v =>
    if k0 = k then (k0, v) :: rest else (k0, v0) :: objInsert rest k v

mutual

/-- Reader of one expression of the data-literal fragment from a token
stream: the value plus the remaining tokens.  An identifier other than
`true`, `false` or `null` is the engine's reference error; any other
mismatch is its syntax error. -/
def readVal : Nat → List Tok → Except String (Value × List Tok)
  | 0, _ => .error "fuel"
  | _ + 1, [] => .error "Unexpected end of input"
  | fuel + 1, t :: ts =>
    match t with
    | .num n => .ok (.vNum n, ts)
    | .str s => .ok (.vStr s, ts)
    | .ident s =>
      if s = "true" then .ok (.vBool true, ts)
      else if s = "false" then .ok (.vBool false, ts)
      else if s = "null" then .ok (.vNull, ts)
      else .error (s ++ " is not defined")
    | .lbrack => readArr fuel ts []
    | .lbrace => readObj fuel ts []
    | _ => .error "Unexpected token"

/-- Reader of array elements after `[` or after an element comma; trailing
commas are accepted as in JavaScript. -/
def readArr : Nat → List Tok → List Value → Except String (Value × List Tok)
  | 0, _, _ => .error "fuel"
  | _ + 1, .rbrack :: ts, acc => .ok (.vArr acc.reverse, ts)
  | fuel + 1, ts, acc =>
    match readVal fuel ts with
    | .error e => .error e
    | .ok (v, ts2) =>
      match ts2 with
      | .comma :: ts3 => readArr fuel ts3 (v :: acc)
      | .rbrack :: ts3 => .ok (.vArr (v :: acc).reverse, ts3)
      | _ => .error "Unexpected token"

/-- Reader of object members after an opening brace or a member comma;
keys are identifiers or string literals, trailing commas are accepted,
and a duplicate key takes the later value. -/
def readObj : Nat → List Tok → List (String × Value) → Except String (Value × List Tok)
  | 0, _, _ => .error "fuel"
  | _ + 1, .rbrace :: ts, acc => .ok (.vObj acc, ts)
  | fuel + 1, .ident k :: .colon :: ts, acc => readMember fuel ts acc k
  | fuel + 1, .str k :: .colon :: ts, acc => readMember fuel ts acc k
  | _ + 1, _, _ => .error "Unexpected token"

/-- Reader of one member's value and the separator after it. -/
def readMember : Nat → List Tok → List (String × Value) → String →
    Except String (Value × List Tok)
  | 0, _, _, _ => .error "fuel"
  | fuel + 1, ts, acc, k =>
    match readVal fuel ts with
    | .error e => .error e
    | .ok (v, ts2) =>
      match ts2 with
      | .comma :: ts3 => readObj fuel ts3 (objInsert acc k v)
      | .rbrace :: ts3 => .ok (.vObj (objInsert acc k v), ts3)
      | _ => .error "Unexpected token"

end

/-- The host evaluator on the data-literal fragment: lex, read one
expression, and require the input to be exhausted — the text is evaluated
inside parentheses (index.ts line 132), so trailing tokens are a syntax
error. -/
def evalJS (l : List Char) : Except String Value :=
  match tokenize l with
  | .error e => .error e
  | .ok ts =>
    match readVal (2 * ts.length + 2) ts with
    | .ok (v, []) => .ok v
    | .ok (_, _ :: _) => .error "Unexpected token"
    | .error e => .error e

/-! ## Errors and the parse entry point (index.ts lines 48-153) -/

/-- Line and column of a position, from `getLineColumn` (index.ts lines
48-54): the text up to the position is split on newlines; the line is the
piece count and the column one past the last piece's length, both
1-based. -/
def getLineColumn (text : String) (position : Nat) : Nat × Nat :=
  let pre := text.data.take position
  (pre.count '\n' + 1, (pre.reverse.takeWhile (· ≠ '\n')).length + 1)

/-- Error construction from `createDetailedError` (index.ts lines 57-69):
line and column are computed only when a position is supplied, and the
message gains an at-line-and-column suffix exactly then. -/
def createDetailedError (originalMessage : String) (tsn : String)
    (position : Option Nat) : TSONError :=
  match position with
  | some p =>
    let lc := getLineColumn tsn p
    { message := "Parse error: " ++ originalMessage ++ " at line " ++
        toString lc.1 ++ ", column " ++ toString lc.2
      line := some lc.1
      column := some lc.2
      position := some p }
  | none =>
    { message := "Parse error: " ++ originalMessage
      line := none
      column := none
      position := none }

/-- The parse entry point, from `parse` (index.ts lines 111-153), on its
cache-miss path: preprocess, evaluate, then check the optional schema.
The Ajv schema compiler is modelled as an opaque predicate on values.  Any
failure inside the `try` is wrapped by `createDetailedError(error, tsn)` —
with no position argument, as at line 149.  The cache only memoizes the
deterministic evaluator result keyed by the preprocessed text, so it does
not change the returned value and is modelled separately (`cacheStep`);
the `sourceMap` option only adds a side table and is not modelled. -/
def parse (tsn : String) (schema : Option (Value → Bool)) :
    Except TSONError Value :=
  let processed := preprocessTSON tsn
  match evalJS processed.data with
  | .error e => .error (createDetailedError e tsn none)
  | .ok result =>
    match schema with
    | some check =>
      if check result then .ok result
      else .error (createDetailedError "Schema validation failed" tsn none)
    | none => .ok result

/-- Result shape of `validate` (index.ts lines 263-273). -/
structure ValidateResult where
  valid : Bool
  error : Option String
deriving DecidableEq, Repr

/-- The validator, from `validate` (index.ts lines 263-273): a successful
parse answers valid with no error text; a caught error answers invalid
with the error's message (every error the modelled parse throws is a
`TSONError`, so the unknown-error fallback is unreachable). -/
def validate (tsn : String) (schema : Option (Value → Bool)) :
    ValidateResult :=
  match parse tsn schema with
  | .ok _ => ⟨true, none⟩
  | .error e => ⟨false, some e.message⟩

/-- One entry of `validateDetailed`'s error list (index.ts lines 276-284). -/
structure DetailedEntry where
  message : String
  line : Option Nat
  column : Option Nat
  position : Option Nat
deriving DecidableEq, Repr

/-- Result shape of `validateDetailed` (index.ts lines 276-305). -/
structure DetailedResult where
  valid : Bool
  errors : List DetailedEntry
deriving DecidableEq, Repr

/-- The detailed validator, from `validateDetailed` (index.ts lines
276-305): an empty error list on success, otherwise one entry carrying the
caught `TSONError`'s message and optional position fields. -/
def validateDetailed (tsn : String) (schema : Option (Value → Bool)) :
    DetailedResult :=
  match parse tsn schema with
  | .ok _ => ⟨true, []⟩
  | .error e => ⟨false, [⟨e.message, e.line, e.column, e.position⟩]⟩

/-! ## The serializer, from `stringify` (index.ts lines 155-213)

The source first renders with `JSON.stringify(obj, replacer, minify ? 0 : 2)`
— modelled by `jsonCompact` and `jsonPretty` — then removes key quotes: in
minified mode by the regex `/"([^"]+)":/g` (modelled by `minifyKeys`), in
pretty mode by the character loop of lines 175-210 (modelled by `posLoop`),
which also drops every comma standing before a newline.  The
`preserveFunctions` option only rewrites function placeholders, which the
function-free value model never produces, so it is the identity here and is
not modelled. -/

/-- One hexadecimal digit, lowercase as `JSON.stringify` emits it. -/
def hexDigit (n : Nat) : Char :=
  if n < 10 then Char.ofNat (48 + n) else Char.ofNat (87 + n)

/-- The escape `JSON.stringify` gives one character of a string value. -/
def escSeq (c : Char) : List Char :=
  if c = '"' then ['\\', '"']
  else if c = '\\' then ['\\', '\\']
  else if c = '\n' then ['\\', 'n']
  else if c = '\t' then ['\\', 't']
  else if c = '\r' then ['\\', 'r']
  else if c = Char.ofNat 8 then ['\\', 'b']
  else if c = Char.ofNat 12 then ['\\', 'f']
  else if c.toNat < 32 then
    ['\\', 'u', '0', '0', hexDigit (c.toNat / 16), hexDigit (c.toNat % 16)]
  else [c]

/-- A JSON string literal for `s`, quotes included. -/
def jsonQuote (s : String) : String :=
  ⟨'"' :: (s.data.map escSeq).flatten ++ ['"']⟩

/-- Indentation at nesting depth `d` under the source's 2-space indent. -/
def ind (d : Nat) : String :=
  ⟨List.replicate (2 * d) ' '⟩

mutual

/-- Rendering of `JSON.stringify(v, replacer, 0)`: compact JSON. -/
def jsonCompact : Value → String
  | .vNull => "null"
  | .vBool b => if b then "true" else "false"
  | .vNum n => toString n
  | .vStr s => jsonQuote s
  | .vArr [] => "[]"
  | .vArr (x :: xs) => "[" ++ jsonCompactList (x :: xs) ++ "]"
  | .vObj [] => "{}"
  | .vObj (m :: ms) => "\x7b" ++ jsonCompactMembers (m :: ms) ++ "\x7d"

/-- Compact rendering of array elements, comma-separated. -/
def jsonCompactList : List Value → String
  | [] => ""
  | [v] => jsonCompact v
  | v :: vs => jsonCompact v ++ "," ++ jsonCompactList vs

/-- Compact rendering of object members, comma-separated. -/
def jsonCompactMembers : List (String × Value) → String
  | [] => ""
  | [(k, v)] => jsonQuote k ++ ":" ++ jsonCompact v
  | (k, v) :: ms => jsonQuote k ++ ":" ++ jsonCompact v ++ "," ++
      jsonCompactMembers ms

end

mutual

/-- Rendering of `JSON.stringify(v, replacer, 2)` at nesting depth `d`:
pretty JSON with a 2-space indent, one element or member per line, and
empty containers kept on one line. -/
def jsonPretty : Value → Nat → String
  | .vNull, _ => "null"
  | .vBool b, _ => if b then "true" else "false"
  | .vNum n, _ => toString n
  | .vStr s, _ => jsonQuote s
  | .vArr [], _ => "[]"
  | .vArr (x :: xs), d =>
    "[\n" ++ jsonPrettyList (x :: xs) (d + 1) ++ "\n" ++ ind d ++ "]"
  | .vObj [], _ => "{}"
  | .vObj (m :: ms), d =>
    "\x7b\n" ++ jsonPrettyMembers (m :: ms) (d + 1) ++ "\n" ++ ind d ++ "\x7d"

/-- Pretty rendering of array elements, each on its own indented line,
comma-and-newline separated. -/
def jsonPrettyList : List Value → Nat → String
  | [], _ => ""
  | [v], d => ind d ++ jsonPretty v d
  | v :: vs, d => ind d ++ jsonPretty v d ++ ",\n" ++ jsonPrettyList vs d

/-- Pretty rendering of object members, each on its own indented line,
comma-and-newline separated. -/
def jsonPrettyMembers : List (String × Value) → Nat → String
  | [], _ => ""
  | [(k, v)], d => ind d ++ jsonQuote k ++ ": " ++ jsonPretty v d
  | (k, v) :: ms, d =>
    ind d ++ jsonQuote k ++ ": " ++ jsonPretty v d ++ ",\n" ++
      jsonPrettyMembers ms d

end

/-- The pretty-mode post-pass of `stringify` (index.ts lines 175-210): a
single left-to-right walk with an in-string flag and an escape flag.  A
quote directly before an identifier-start character is dropped and opens a
key; a quote directly before a colon while in that state is dropped and
closes it; a comma directly before a newline is dropped; everything else
is copied. -/
def posLoop : List Char → Bool → Bool → List Char
  | [], _, _ => []
  | c :: rest, inString, escapeNext =>
    if escapeNext then c :: posLoop rest inString false
    else if c = '\\' then c :: posLoop rest inString true
    else if c == '"' && !inString &&
        (match rest.head? with | some n => identStart n | none => false) then
      posLoop rest true false
    else if c == '"' && inString && rest.head? == some ':' then
      posLoop rest false false
    else if c == ',' && rest.head? == some '\n' then
      posLoop rest inString false
    else c :: posLoop rest inString false

/-- The minified-mode post-pass of `stringify` (index.ts line 172): the
global regex `/"([^"]+)":/g` replaced by the group and a colon, as the
regex engine applies it — at each quote the maximal quote-free run must be
non-empty and be followed by a quote and a colon, else the engine moves
on by one character. -/
def minifyKeysF : Nat → List Char → List Char
  | 0, l => l
  | _ + 1, [] => []
  | fuel + 1, c :: rest =>
    if c = '"' then
      match rest.dropWhile (· ≠ '"') with
      | '"' :: ':' :: rest3 =>
        if rest.takeWhile (· ≠ '"') = [] then c :: minifyKeysF fuel rest
        else rest.takeWhile (· ≠ '"') ++ ':' :: minifyKeysF fuel rest3
      | _ => c :: minifyKeysF fuel rest
    else c :: minifyKeysF fuel rest

/-- The minified-mode post-pass at adequate fuel. -/
def minifyKeys (l : List Char) : List Char :=
  minifyKeysF (l.length + 1) l

/-- Options of `stringify` (index.ts lines 35-39); `preserveFunctions` and
`sourceMap` do not affect the output on function-free values. -/
structure StringifyOptions where
  minify : Bool := false
deriving DecidableEq, Repr

/-- The serializer, from `stringify` (index.ts lines 155-213): render with
`JSON.stringify` at indent 0 or 2, then strip key quotes by regex
(minified) or by the character loop, which also strips commas before
newlines (pretty). -/
def stringify (obj : Value) (options : StringifyOptions) : String :=
  if options.minify then
    let json := jsonCompact obj
    ⟨minifyKeys json.data⟩
  else
    let json := jsonPretty obj 0
    ⟨posLoop json.data false false⟩

/-! ## The parse stream, from `createParseStream` (index.ts lines 218-261)

The transform holds a text buffer; each chunk is appended and the whole
buffer rescanned with a brace counter; whenever the counter is zero past
the emission point, the spanned slice is speculatively parsed, emitted on
success, and the emission point advanced; the buffer keeps what was not
emitted.  `flush` parses any non-blank remainder and raises its error. -/

/-- One scan of the buffered text (index.ts lines 226-243): position `i`,
running brace count, emission point `start`, and the values pushed so far.
Fuel is structural; `buf.length` units reach the end of the buffer. -/
def scanBufF (buf : List Char) : Nat → Nat → Int → Nat → List Value →
    Nat × List Value
  | 0, _, _, start, acc => (start, acc)
  | fuel + 1, i, depth, start, acc =>
    if i < buf.length then
      let c := buf.getD i ' '
      let depth2 := if c = '{' then depth + 1
        else if c = '}' then depth - 1 else depth
      if depth2 = 0 ∧ start < i then
        match parse ⟨(buf.take (i + 1)).drop start⟩ none with
        | .ok v => scanBufF buf fuel (i + 1) depth2 (i + 1) (acc ++ [v])
        | .error _ => scanBufF buf fuel (i + 1) depth2 start acc
      else scanBufF buf fuel (i + 1) depth2 start acc
    else (start, acc)

/-- One `transform` call of the stream (index.ts lines 223-247): the new
buffer and the values pushed, in push order. -/
def transformStep (buffer chunk : String) : String × List Value :=
  let buf := buffer.data ++ chunk.data
  let sv := scanBufF buf buf.length 0 0 0 []
  (⟨buf.drop sv.1⟩, sv.2)

/-- The `flush` call of the stream (index.ts lines 249-259): values pushed
and the error raised, if any; a remainder that is blank — `buffer.trim()`
is empty, i.e. no character falls outside the whitespace class — is
dropped silently. -/
def flushStep (buffer : String) : List Value × Option TSONError :=
  if buffer.data.any (fun c => !isWs c) then
    match parse buffer none with
    | .ok v => ([v], none)
    | .error e => ([], some e)
  else ([], none)

/-! ## The transform cache, from index.ts lines 7, 104-109 and 130-134

`parse` looks the preprocessed text up in `transformCache`; on a miss with
a successful evaluation it stores the result and then calls
`clearCacheIfNeeded`, which empties the whole map once its size passes
1000.  Only the key set matters to the bound, so the cache is modelled as
its list of keys; a lookup hit, and a failed evaluation, leave it
unchanged. -/

/-- Effect of one `parse` call on the set of cached keys. -/
def cacheStep (cache : List String) (tsn : String) : List String :=
  let processed := preprocessTSON tsn
  if cache.contains processed then cache
  else
    match evalJS processed.data with
    | .ok _ =>
      let c := processed :: cache
      if 1000 < c.length then [] else c
    | .error _ => cache

/-! ## The dispatcher, from `parseParallel` (performance.ts lines 173-196)

`parseParallel` slices the job list into batches of `maxWorkers`, starts a
worker per job, and writes each settled value into a pre-sized array at
the job's global index; batching and scheduling only affect the order of
those writes.  The worker body (performance.ts lines 278-286) posts the
parse result on success and posts `{error: message}` on failure, and
`parseInWorker` resolves with whatever was posted — so a parse failure
reaches the dispatcher as an ordinary value, not a rejection, and the
`Failed to parse file` throw at line 187 fires only when the worker itself
crashes, which the in-process model cannot produce; the rejection channel
is therefore typed but never taken. -/

/-- What a worker job settles with, from the worker handler (performance.ts
lines 278-286): the parsed value, or an object carrying the error message
under the key `error`. -/
def parseInWorker (content : String) (schema : Option (Value → Bool)) :
    Value :=
  match parse content schema with
  | .ok v => v
  | .error e => .vObj [("error", .vStr e.message)]

/-- The writes of a batch run: each completed job writes its settled value
at its own global index into the pre-sized output, in completion order. -/
def scatter (order : List Nat) (f : Nat → Value) (init : List Value) :
    List Value :=
  order.foldl (fun acc i => acc.set i (f i)) init

/-- The dispatcher, from `parseParallel` (performance.ts lines 173-196),
with the order in which jobs complete made explicit: every job settles,
its value lands at its own index, and the call resolves with the filled
output; the rejection channel exists only for a worker crash. -/
def parseParallel (jobs : List (String × Option (Value → Bool)))
    (order : List Nat) : Except String (List Value) :=
  .ok (scatter order
    (fun i =>
      match jobs.get? i with
      | some j => parseInWorker j.1 j.2
      | none => .vNull)
    (List.replicate jobs.length .vNull))

/-- The identifier grammar of spec §4.1 for object keys:
`[A-Za-z_$][A-Za-z0-9_$]*`. -/
def isIdentifierKey (s : String) : Bool :=
  match s.data with
  | [] => false
  | c :: cs => identStart c && cs.all identCont

/-! ## Helper lemmas for the preprocessing passes -/

/-- Pointwise comparison: the first list is the second with some characters
turned into spaces, length preserved. -/
def pointSpaced : List Char → List Char → Bool
  | [], [] => true
  | o :: os, i :: is_ => (o == i || o == ' ') && pointSpaced os is_
  | _, _ => false

theorem pointSpaced_length : ∀ {a b : List Char}, pointSpaced a b = true → a.length = b.length := by
  intro a
  induction a with
  | nil => intro b h; cases b with
    | nil => rfl
    | cons x xs => simp [pointSpaced] at h
  | cons o os ih =>
    intro b h
    cases b with
    | nil => simp [pointSpaced] at h
    | cons i is_ =>
      simp only [pointSpaced, Bool.and_eq_true] at h
      simp [ih h.2]

theorem pointSpaced_refl : ∀ (l : List Char), pointSpaced l l = true := by
  intro l
  induction l with
  | nil => rfl
  | cons c cs ih => simp [pointSpaced, ih]

theorem pointSpaced_spaces : ∀ (l : List Char), pointSpaced (spaces l.length) l = true := by
  intro l
  induction l with
  | nil => rfl
  | cons c cs ih => simp [spaces, pointSpaced] at ih ⊢; simpa using ih

theorem pointSpaced_append : ∀ {a b c d : List Char},
    pointSpaced a b = true → pointSpaced c d = true →
    pointSpaced (a ++ c) (b ++ d) = true := by
  intro a
  induction a with
  | nil =>
    intro b c d hab hcd
    cases b with
    | nil => simpa using hcd
    | cons x xs => simp [pointSpaced] at hab
  | cons o os ih =>
    intro b c d hab hcd
    cases b with
    | nil => simp [pointSpaced] at hab
    | cons i is_ =>
      simp only [pointSpaced, Bool.and_eq_true] at hab
      simp only [List.cons_append, pointSpaced, Bool.and_eq_true]
      exact ⟨hab.1, ih hab.2 hcd⟩

theorem pointSpaced_trans : ∀ {a b c : List Char},
    pointSpaced a b = true → pointSpaced b c = true → pointSpaced a c = true := by
  intro a
  induction a with
  | nil =>
    intro b c hab hbc
    cases b with
    | nil => cases c with
      | nil => rfl
      | cons z zs => simp [pointSpaced] at hbc
    | cons y ys => simp [pointSpaced] at hab
  | cons o os ih =>
    intro b c hab hbc
    cases b with
    | nil => simp [pointSpaced] at hab
    | cons y ys =>
      cases c with
      | nil => simp [pointSpaced] at hbc
      | cons z zs =>
        simp only [pointSpaced, Bool.and_eq_true] at hab hbc ⊢
        refine ⟨?_, ih hab.2 hbc.2⟩
        rcases Bool.or_eq_true_iff.mp hab.1 with h1 | h1
        · rcases Bool.or_eq_true_iff.mp hbc.1 with h2 | h2
          · simp_all
          · simp_all
        · simp_all

theorem closeIdx_le : ∀ (l : List Char) (j : Nat), closeIdx l = some j → j + 2 ≤ l.length := by
  intro l
  induction l with
  | nil => intro j h; simp [closeIdx] at h
  | cons c rest ih =>
    intro j h
    by_cases hc : c = '*' ∧ rest.head? = some '/'
    · simp [closeIdx, hc] at h
      subst h
      cases rest with
      | nil => simp at hc
      | cons d rest2 => simp only [List.length_cons]; omega
    · simp [closeIdx, hc] at h
      obtain ⟨j2, hj2, rfl⟩ := h
      have := ih j2 hj2
      simp only [List.length_cons]; omega

theorem nlIdx_le : ∀ (l : List Char) (j : Nat), nlIdx l = some j → j + 1 ≤ l.length := by
  intro l
  induction l with
  | nil => intro j h; simp [nlIdx] at h
  | cons c rest ih =>
    intro j h
    by_cases hc : isLineTerm c
    · simp [nlIdx, hc] at h
      subst h
      simp only [List.length_cons]; omega
    · simp [nlIdx, hc] at h
      obtain ⟨j2, hj2, rfl⟩ := h
      have := ih j2 hj2
      simp only [List.length_cons]; omega

theorem ps_blockPassF : ∀ (fuel : Nat) (l : List Char), l.length < fuel →
    pointSpaced (blockPassF fuel l) l = true := by
  intro fuel
  induction fuel with
  | zero => intro l h; omega
  | succ f ih =>
    intro l h
    cases l with
    | nil => rfl
    | cons c rest =>
      by_cases hc : c = '/' ∧ rest.head? = some '*'
      · cases rest with
        | nil => simp at hc
        | cons d rest2 =>
          obtain ⟨rfl, hd⟩ := hc
          simp only [List.head?_cons, Option.some.injEq] at hd
          subst hd
          cases hcc : closeIdx (('*' :: rest2).tail) with
          | none =>
            simp only [blockPassF, List.head?_cons, and_self, if_pos rfl, hcc]
            simp only [List.length_cons] at h
            simp [pointSpaced, ih ('*' :: rest2) (by simp; omega)]
          | some j =>
            simp only [blockPassF, List.head?_cons, and_self, if_pos rfl, hcc]
            simp only [List.tail_cons] at hcc ⊢
            have hj := closeIdx_le rest2 j hcc
            have hsplit : '/' :: '*' :: rest2 =
                ('/' :: '*' :: rest2.take (j + 2)) ++ rest2.drop (j + 2) := by
              simp [List.take_append_drop]
            rw [hsplit]
            apply pointSpaced_append
            · have hlen : ('/' :: '*' :: rest2.take (j + 2)).length = j + 4 := by
                simp only [List.length_cons, List.length_take]
                omega
              have hs := pointSpaced_spaces ('/' :: '*' :: rest2.take (j + 2))
              rwa [hlen] at hs
            · apply ih
              simp only [List.length_cons] at h
              simp only [List.length_drop]
              omega
      · simp only [blockPassF, if_neg hc]
        simp only [List.length_cons] at h
        simp [pointSpaced, ih rest (by omega)]

theorem ps_linePassF : ∀ (fuel : Nat) (l : List Char), l.length < fuel →
    pointSpaced (linePassF fuel l) l = true := by
  intro fuel
  induction fuel with
  | zero => intro l h; omega
  | succ f ih =>
    intro l h
    cases l with
    | nil => rfl
    | cons c rest =>
      by_cases hc : c = '/' ∧ rest.head? = some '/'
      · cases rest with
        | nil => simp at hc
        | cons d rest2 =>
          obtain ⟨rfl, hd⟩ := hc
          simp only [List.head?_cons, Option.some.injEq] at hd
          subst hd
          cases hcc : nlIdx (('/' :: rest2).tail) with
          | none =>
            simp only [linePassF, List.head?_cons, and_self, if_pos rfl, hcc]
            simp only [List.tail_cons]
            have hs := pointSpaced_spaces ('/' :: '/' :: rest2)
            have hlen : ('/' :: '/' :: rest2).length = rest2.length + 2 := by
              simp only [List.length_cons]
            rwa [hlen] at hs
          | some j =>
            simp only [linePassF, List.head?_cons, and_self, if_pos rfl, hcc]
            simp only [List.tail_cons] at hcc ⊢
            have hj := nlIdx_le rest2 j hcc
            have hsplit : '/' :: '/' :: rest2 =
                ('/' :: '/' :: rest2.take j) ++ rest2.drop j := by
              simp [List.take_append_drop]
            rw [hsplit]
            apply pointSpaced_append
            · have hlen : ('/' :: '/' :: rest2.take j).length = j + 2 := by
                simp only [List.length_cons, List.length_take]
                omega
              have hs := pointSpaced_spaces ('/' :: '/' :: rest2.take j)
              rwa [hlen] at hs
            · apply ih
              simp only [List.length_cons] at h
              simp only [List.length_drop]
              omega
      · simp only [linePassF, if_neg hc]
        simp only [List.length_cons] at h
        simp [pointSpaced, ih rest (by omega)]

/-! # Theorems settling the claims -/

/-- Claim C1: the round trip `parse(stringify(v))` under default options
fails already on a two-member object of numbers and on a one-member object
with a string value.  The pretty post-pass deletes every comma standing
before a newline and the opening quote of a string value whose first
character looks like an identifier start, so the emitted text is not a
value expression and the evaluator rejects it.  The claim's equality
`parse(stringify(v)) == v` therefore fails for these `v`. -/
theorem c1_roundtrip_fails_on_code :
    stringify (Value.vObj [("a", Value.vNum 1), ("b", Value.vNum 2)]) {} =
      "\x7b\n  a: 1\n  b: 2\n\x7d" ∧
    (parse "\x7b\n  a: 1\n  b: 2\n\x7d" none).isOk = false ∧
    stringify (Value.vObj [("name", Value.vStr "Bob")]) {} =
      "\x7b\n  name: Bob\"\n\x7d" ∧
    (parse "\x7b\n  name: Bob\"\n\x7d" none).isOk = false :=
  ⟨rfl, rfl, rfl, rfl⟩

/-- Claim C2: on the input `"{ a: }"` the parse fails, but the thrown
error carries no line, no column and no offset at all — `parse` calls
`createDetailedError` without a position (index.ts line 149) — so in
particular no column pointing at the closing brace (column 6) is
reported. -/
theorem c2_error_has_no_position :
    parse "{ a: }" none =
      .error { message := "Parse error: Unexpected token"
               line := none, column := none, position := none } :=
  rfl

/-- Claim C4: feeding `"{a:1}{b:2}"` to the parse stream in two chunks,
split at any of the eleven possible boundaries (a split inside the literal
`1}` included), pushes exactly the two objects in order, and the flush
step pushes nothing and raises nothing. -/
theorem c4_stream_two_chunk_splits :
    (List.range 11).map (fun k =>
      let s := "\x7ba:1\x7d\x7bb:2\x7d"
      let step1 := transformStep "" (s.take k)
      let step2 := transformStep step1.1 (s.drop k)
      let fl := flushStep step2.1
      (step1.2 ++ step2.2 ++ fl.1, fl.2)) =
    List.replicate 11
      ([Value.vObj [("a", Value.vNum 1)], Value.vObj [("b", Value.vNum 2)]],
        (none : Option TSONError)) :=
  rfl

/-- Claim C7, counterexample: in minified mode the key `"a b"`, which does
not match the identifier grammar `[A-Za-z_$][A-Za-z0-9_$]*`, is still
emitted without quotes — the emitted text contains no quote character at
all — because the minify regex unquotes every non-empty key. -/
theorem c7_nonidentifier_key_unquoted :
    stringify (Value.vObj [("a b", Value.vNum 1)]) { minify := true } =
      "{a b:1}" ∧
    isIdentifierKey "a b" = false ∧
    "{a b:1}".data.all (· ≠ '"') = true :=
  ⟨rfl, rfl, rfl⟩

/-- Claim C10: the comment-preprocessing step substitutes a run of spaces
of the length of each removed comment, so its output has exactly the
length of its input and every position holds either the input's original
character or a space — in particular every character outside a removed
comment keeps its absolute offset. -/
theorem c10_preprocess_preserves_offsets :
    ∀ (t : String), (preprocessTSON t).length = t.length ∧
      pointSpaced (preprocessTSON t).data t.data = true := by
  intro t
  have hb : pointSpaced (blockPass t.data) t.data = true :=
    ps_blockPassF (t.data.length + 1) t.data (by omega)
  have hl : pointSpaced (linePass (blockPass t.data)) (blockPass t.data) = true :=
    ps_linePassF ((blockPass t.data).length + 1) (blockPass t.data) (by omega)
  have hps : pointSpaced (preprocessTSON t).data t.data = true :=
    pointSpaced_trans hl hb
  exact ⟨pointSpaced_length hps, hps⟩

/-- Claim C9: the validators are total functions of the parse outcome — they
cannot throw — and faithful to it: `validate` answers valid exactly when
`parse` succeeds and carries an error message exactly otherwise, and
`validateDetailed` answers valid with an empty error list exactly on
success and otherwise one entry holding the thrown error's message, line,
column and position. -/
theorem c9_validators_follow_parse :
    ∀ (tsn : String) (schema : Option (Value → Bool)),
      (validate tsn schema).valid = (parse tsn schema).isOk ∧
      (validate tsn schema).error.isNone = (parse tsn schema).isOk ∧
      (validateDetailed tsn schema).valid = (parse tsn schema).isOk ∧
      (validateDetailed tsn schema).errors =
        (match parse tsn schema with
         | .ok _ => []
         | .error e => [⟨e.message, e.line, e.column, e.position⟩]) := by
  intro tsn schema
  cases hp : parse tsn schema <;>
    simp [validate, validateDetailed, hp, Except.isOk, Except.toBool]

/-! ## Helper lemmas for the cache and the dispatcher -/

theorem cacheStep_bound (cache : List String) (t : String)
    (h : cache.length ≤ 1000) : (cacheStep cache t).length ≤ 1000 := by
  unfold cacheStep
  by_cases hm : preprocessTSON t ∈ cache
  · rw [if_pos (List.elem_iff.mpr hm)]
    exact h
  · rw [if_neg (fun hc => hm (List.elem_iff.mp hc))]
    cases he : evalJS (preprocessTSON t).data with
    | ok v =>
      simp only [List.length_cons]
      by_cases ho : 1000 < cache.length + 1
      · rw [if_pos ho]; simp
      · rw [if_neg ho]; simp only [List.length_cons]; omega
    | error e => exact h

theorem cacheFold_bound (texts : List String) :
    ∀ cache : List String, cache.length ≤ 1000 →
      (texts.foldl cacheStep cache).length ≤ 1000 := by
  induction texts with
  | nil => intro cache h; simpa using h
  | cons t ts ih =>
    intro cache h
    simpa using ih (cacheStep cache t) (cacheStep_bound cache t h)

theorem scatter_length (order : List Nat) (f : Nat → Value) :
    ∀ init : List Value, (scatter order f init).length = init.length := by
  induction order with
  | nil => intro init; rfl
  | cons i os ih =>
    intro init
    simp only [scatter, List.foldl_cons]
    simpa [scatter] using (ih (init.set i (f i))).trans (List.length_set init i (f i))

theorem scatter_get_notMem (order : List Nat) (f : Nat → Value) :
    ∀ (init : List Value) (j : Nat), j ∉ order →
      (scatter order f init).get? j = init.get? j := by
  induction order with
  | nil => intro init j _; rfl
  | cons i os ih =>
    intro init j hj
    simp only [List.mem_cons, not_or] at hj
    simp only [scatter, List.foldl_cons]
    have := ih (init.set i (f i)) j hj.2
    simp only [scatter] at this
    rw [this, List.get?_set_ne (f i) init (fun h => hj.1 h.symm)]

theorem scatter_get_mem (order : List Nat) (f : Nat → Value) :
    ∀ (init : List Value) (j : Nat), j ∈ order → j < init.length →
      (scatter order f init).get? j = some (f j) := by
  induction order with
  | nil => intro init j hj _; simp at hj
  | cons i os ih =>
    intro init j hj hlen
    simp only [scatter, List.foldl_cons]
    by_cases hos : j ∈ os
    · have := ih (init.set i (f i)) j hos (by simp [List.length_set]; omega)
      simpa [scatter] using this
    · have hji : j = i := by
        rcases List.mem_cons.mp hj with h | h
        · exact h
        · exact absurd h hos
      subst hji
      have := scatter_get_notMem os f (init.set j (f j)) j hos
      simp only [scatter] at this ⊢
      rw [this, List.get?_set_eq_of_lt (f j) hlen]

theorem scatter_perm (n : Nat) (order : List Nat) (f : Nat → Value)
    (hperm : order.Perm (List.range n)) :
    scatter order f (List.replicate n Value.vNull) = (List.range n).map f := by
  apply List.ext_get?
  intro j
  by_cases hj : j < n
  · have hmem : j ∈ order := hperm.mem_iff.mpr (List.mem_range.mpr hj)
    rw [scatter_get_mem order f _ j hmem (by simpa using hj)]
    rw [List.get?_map, List.get?_range hj]
    rfl
  · have h1 : (scatter order f (List.replicate n Value.vNull)).get? j = none := by
      apply List.get?_eq_none.mpr
      rw [scatter_length]
      simpa using Nat.le_of_not_lt hj
    have h2 : ((List.range n).map f).get? j = none := by
      apply List.get?_eq_none.mpr
      simpa using Nat.le_of_not_lt hj
    rw [h1, h2]

theorem get?_lt_length {α : Type} {l : List α} {k : Nat} {x : α}
    (h : l.get? k = some x) : k < l.length := by
  by_contra hk
  rw [List.get?_eq_none.mpr (by omega)] at h
  exact Option.noConfusion h

/-- Claim C8: when every job of a batch parses successfully, the
dispatcher returns exactly the jobs' parse results in input order, for
every order in which the jobs may complete (any permutation of the write
sequence), because each worker writes its settled value at its job's own
index of the pre-sized output. -/
theorem c8_parallel_preserves_order
    (jobs : List (String × Option (Value → Bool))) (order : List Nat)
    (hperm : order.Perm (List.range jobs.length))
    (hok : ∀ j ∈ jobs, (parse j.1 j.2).isOk = true) :
    parseParallel jobs order =
      .ok (jobs.map (fun j => (parse j.1 j.2).toOption.getD Value.vNull)) := by
  unfold parseParallel
  rw [scatter_perm jobs.length order _ hperm]
  congr 1
  apply List.ext_get?
  intro k
  by_cases hk : k < jobs.length
  · obtain ⟨job, hjob⟩ : ∃ x, jobs.get? k = some x :=
      ⟨jobs.get ⟨k, hk⟩, List.get?_eq_get hk⟩
    rw [List.get?_map, List.get?_range hk, List.get?_map, hjob]
    have hmem : job ∈ jobs := List.get?_mem hjob
    have hisok := hok job hmem
    obtain ⟨v, hv⟩ : ∃ v, parse job.1 job.2 = .ok v := by
      cases hp : parse job.1 job.2 with
      | ok v => exact ⟨v, rfl⟩
      | error e => rw [hp] at hisok; simp [Except.isOk, Except.toBool] at hisok
    have hjob2 : jobs[k]? = some job := by
      rw [← List.get?_eq_getElem?]
      exact hjob
    simp [hjob2, parseInWorker, hv, Except.toOption]
  · have h1 : ((List.range jobs.length).map fun k =>
        match jobs.get? k with
        | some j => parseInWorker j.1 j.2
        | none => Value.vNull).get? k = none := by
      apply List.get?_eq_none.mpr
      simpa using Nat.le_of_not_lt hk
    have h2 : (jobs.map fun j => (parse j.1 j.2).toOption.getD Value.vNull).get? k = none := by
      apply List.get?_eq_none.mpr
      simpa using Nat.le_of_not_lt hk
    rw [h1, h2]

end TSN

namespace TSN

/-- Claim C6: over any sequence of parse calls starting from the empty
cache, the number of cached keys after every call stays within the
configured maximum of 1000; and the implemented eviction policy is
clear-all — whenever an insertion would carry the size past the maximum,
the whole cache is emptied. -/

theorem c6_cache_bound_clear_all :
    (∀ texts : List String, (texts.foldl cacheStep []).length ≤ 1000) ∧
    (∀ (cache : List String) (t : String),
      cache.contains (preprocessTSON t) = false →
      (evalJS (preprocessTSON t).data).isOk = true →
      1000 < cache.length + 1 →
      cacheStep cache t = []) := by
  constructor
  · intro texts
    exact cacheFold_bound texts [] (by simp)
  · intro cache t hm ho hov
    obtain ⟨v, hv⟩ : ∃ v, evalJS (preprocessTSON t).data = .ok v := by
      cases he : evalJS (preprocessTSON t).data with
      | ok v => exact ⟨v, rfl⟩
      | error e => rw [he] at ho; simp [Except.isOk, Except.toBool] at ho
    unfold cacheStep
    rw [if_neg (by rw [hm]; simp), hv]
    simp only [List.length_cons]
    rw [if_pos hov]

/-- Witness for C8 at a concrete two-job batch completed in reverse
order. -/

theorem c8_witness_concrete :
    parseParallel [("\x7ba:1\x7d", none), ("2", none)] [1, 0] =
      .ok [Value.vObj [("a", Value.vNum 1)], Value.vNum 2] :=
  c8_parallel_preserves_order [("\x7ba:1\x7d", none), ("2", none)] [1, 0]
    (by decide) (by decide)

/-- Claim C5, amended behaviour: a job whose content fails to parse does
not reject the batch at all — the worker converts the error into an
object carrying the message under the key `error`, that object lands at
the failed job's own index, the sibling jobs' outcomes land at theirs
untouched, and the call resolves with that output for every completion
order. -/

theorem c5_failed_job_resolves
    (jobs : List (String × Option (Value → Bool))) (order : List Nat)
    (i : Nat) (job : String × Option (Value → Bool)) (e : TSONError)
    (hperm : order.Perm (List.range jobs.length))
    (hjob : jobs.get? i = some job)
    (herr : parse job.1 job.2 = .error e) :
    parseParallel jobs order = .ok ((List.range jobs.length).map (fun k =>
        match jobs.get? k with
        | some j => parseInWorker j.1 j.2
        | none => Value.vNull)) ∧
    ((List.range jobs.length).map (fun k =>
        match jobs.get? k with
        | some j => parseInWorker j.1 j.2
        | none => Value.vNull)).get? i =
      some (Value.vObj [("error", Value.vStr e.message)]) := by
  constructor
  · unfold parseParallel
    rw [scatter_perm jobs.length order _ hperm]
  · have hi : i < jobs.length := get?_lt_length hjob
    have hjob2 : jobs[i]? = some job := by
      rw [← List.get?_eq_getElem?]
      exact hjob
    rw [List.get?_map, List.get?_range hi]
    simp [hjob2, parseInWorker, herr]

/-- Counterexample to C5 as stated: a batch whose first job fails
resolves successfully with an error-message object in slot 0 — there is
no AggregateError, indeed no rejection of any kind. -/

theorem c5_counterexample_resolves :
    parseParallel [("\x7b", none), ("\x7ba:1\x7d", none)] [0, 1] =
      .ok [Value.vObj [("error", Value.vStr "Parse error: Unexpected token")],
           Value.vObj [("a", Value.vNum 1)]] :=
  rfl

/-- Witness for the amended C5 at a concrete batch whose second job
fails. -/

theorem c5_witness_concrete :
    parseParallel [("\x7ba:1\x7d", none), ("\x7b", none)] [1, 0] =
      .ok ((List.range 2).map (fun k =>
        match [(("\x7ba:1\x7d" : String), (none : Option (Value → Bool))),
               ("\x7b", none)].get? k with
        | some j => parseInWorker j.1 j.2
        | none => Value.vNull)) ∧
    ((List.range 2).map (fun k =>
        match [(("\x7ba:1\x7d" : String), (none : Option (Value → Bool))),
               ("\x7b", none)].get? k with
        | some j => parseInWorker j.1 j.2
        | none => Value.vNull)).get? 1 =
      some (Value.vObj [("error", Value.vStr "Parse error: Unexpected token")]) :=
  c5_failed_job_resolves [("\x7ba:1\x7d", none), ("\x7b", none)] [1, 0] 1
    ("\x7b", none)
    { message := "Parse error: Unexpected token"
      line := none, column := none, position := none }
    (by decide) rfl rfl


/-! ## Serializer key-quoting development (claim C7) -/

theorem dropWhile_length_le {p : Char → Bool} :
    ∀ (l : List Char), (l.dropWhile p).length ≤ l.length := by
  intro l
  induction l with
  | nil => simp
  | cons x xs ih =>
    simp only [List.dropWhile_cons]
    by_cases hx : p x = true
    · simp only [hx, if_true, List.length_cons]
      omega
    · simp only [hx]
      simp

theorem mk_fuelInv : ∀ (f : Nat) (l : List Char), l.length < f →
    ∀ g, l.length < g → minifyKeysF f l = minifyKeysF g l := by
  intro f
  induction f with
  | zero => intro l h; omega
  | succ f ih =>
    intro l h g hg
    cases l with
    | nil =>
      cases g with
      | zero => omega
      | succ g => rfl
    | cons c rest =>
      cases g with
      | zero => omega
      | succ g =>
        simp only [List.length_cons] at h hg
        by_cases hc : c = '"'
        · subst hc
          show (if ('"' : Char) = '"' then _ else _) = (if ('"' : Char) = '"' then _ else _)
          rw [if_pos rfl, if_pos rfl]
          split
          · rename_i rest3 heq
            by_cases hemp : rest.takeWhile (· ≠ '"') = []
            · rw [if_pos hemp, if_pos hemp, ih rest (by omega) g (by omega)]
            · rw [if_neg hemp, if_neg hemp]
              have hlen : rest3.length ≤ rest.length := by
                have h1 := dropWhile_length_le (p := fun x => decide (x ≠ '"')) rest
                rw [heq] at h1
                simp only [List.length_cons] at h1
                omega
              rw [ih rest3 (by omega) g (by omega)]
          · rw [ih rest (by omega) g (by omega)]
        · show (if c = '"' then _ else _) = (if c = '"' then _ else _)
          rw [if_neg hc, if_neg hc, ih rest (by omega) g (by omega)]



theorem all_takeWhile_append {p : Char → Bool} :
    ∀ {a : List Char} (b : List Char), (∀ c ∈ a, p c = true) →
      (a ++ b).takeWhile p = a ++ b.takeWhile p := by
  intro a
  induction a with
  | nil => intro b _; rfl
  | cons x xs ih =>
    intro b h
    have hx : p x = true := h x (by simp)
    simp only [List.cons_append, List.takeWhile_cons, hx, if_true]
    rw [ih b (fun c hc => h c (by simp [hc]))]

theorem all_dropWhile_append {p : Char → Bool} :
    ∀ {a : List Char} (b : List Char), (∀ c ∈ a, p c = true) →
      (a ++ b).dropWhile p = b.dropWhile p := by
  intro a
  induction a with
  | nil => intro b _; rfl
  | cons x xs ih =>
    intro b h
    have hx : p x = true := h x (by simp)
    simp only [List.cons_append, List.dropWhile_cons, hx, if_true]
    exact ih b (fun c hc => h c (by simp [hc]))

theorem minifyKeys_cons (c : Char) (rest : List Char) (hc : c ≠ '"') :
    minifyKeys (c :: rest) = c :: minifyKeys rest := by
  unfold minifyKeys
  simp only [List.length_cons]
  show (if c = '"' then _ else c :: minifyKeysF (rest.length + 1) rest) =
    c :: minifyKeysF (rest.length + 1) rest
  rw [if_neg hc]

theorem minifyKeys_seg (xs : List Char) (rest : List Char)
    (h : ∀ c ∈ xs, c ≠ '"') :
    minifyKeys (xs ++ rest) = xs ++ minifyKeys rest := by
  induction xs with
  | nil => rfl
  | cons x xs2 ih =>
    rw [List.cons_append, minifyKeys_cons x (xs2 ++ rest) (h x (by simp)),
      ih (fun c hc => h c (by simp [hc]))]
    rfl

theorem minifyKeys_key (k : List Char) (rest : List Char) (hk : k ≠ [])
    (h : ∀ c ∈ k, c ≠ '"') :
    minifyKeys ('"' :: k ++ '"' :: ':' :: rest) = k ++ ':' :: minifyKeys rest := by
  unfold minifyKeys
  show (if ('"' : Char) = '"' then
      match (k ++ '"' :: ':' :: rest).dropWhile (· ≠ '"') with
      | '"' :: ':' :: rest3 =>
        if (k ++ '"' :: ':' :: rest).takeWhile (· ≠ '"') = [] then
          '"' :: minifyKeysF ((k ++ '"' :: ':' :: rest).length + 1) (k ++ '"' :: ':' :: rest)
        else (k ++ '"' :: ':' :: rest).takeWhile (· ≠ '"') ++
          ':' :: minifyKeysF ((k ++ '"' :: ':' :: rest).length + 1) rest3
      | _ => '"' :: minifyKeysF ((k ++ '"' :: ':' :: rest).length + 1)
          (k ++ '"' :: ':' :: rest)
    else '"' :: minifyKeysF ((k ++ '"' :: ':' :: rest).length + 1)
      (k ++ '"' :: ':' :: rest)) = k ++ ':' :: minifyKeysF (rest.length + 1) rest
  rw [if_pos rfl]
  have hall : ∀ c ∈ k, (fun x => decide (x ≠ '"')) c = true := by
    intro c hc
    simpa using h c hc
  have hdrop : (k ++ '"' :: ':' :: rest).dropWhile (· ≠ '"') = '"' :: ':' :: rest := by
    rw [all_dropWhile_append _ hall]
    simp [List.dropWhile_cons]
  have htake : (k ++ '"' :: ':' :: rest).takeWhile (· ≠ '"') = k := by
    rw [all_takeWhile_append _ hall]
    simp [List.takeWhile_cons]
  rw [hdrop, htake]
  show (if k = [] then _ else
      k ++ ':' :: minifyKeysF ((k ++ '"' :: ':' :: rest).length + 1) rest) =
    k ++ ':' :: minifyKeysF (rest.length + 1) rest
  rw [if_neg hk]
  congr 2
  apply mk_fuelInv
  · simp only [List.length_append, List.length_cons]
    omega
  · omega



/-- Key characters for which `JSON.stringify` needs no escaping: printable,
no quote, no backslash. -/
def safeKeyChar (c : Char) : Bool :=
  !(c == '"') && !(c == '\\') && decide (32 ≤ c.toNat)

theorem safeKeyChar_spec (c : Char) (h : safeKeyChar c = true) :
    c ≠ '"' ∧ c ≠ '\\' ∧ 32 ≤ c.toNat := by
  simp only [safeKeyChar, Bool.and_eq_true, Bool.not_eq_true', beq_eq_false_iff_ne,
    decide_eq_true_eq] at h
  exact ⟨h.1.1, h.1.2, h.2⟩

theorem escSeq_safe (c : Char) (h : safeKeyChar c = true) : escSeq c = [c] := by
  obtain ⟨h1, h2, h3⟩ := safeKeyChar_spec c h
  unfold escSeq
  rw [if_neg h1, if_neg h2]
  rw [if_neg (by intro hx; subst hx; have : ('\n').toNat = 10 := rfl; omega)]
  rw [if_neg (by intro hx; subst hx; have : ('\t').toNat = 9 := rfl; omega)]
  rw [if_neg (by intro hx; subst hx; have : ('\r').toNat = 13 := rfl; omega)]
  rw [if_neg (by intro hx; subst hx; have : (Char.ofNat 8).toNat = 8 := rfl; omega)]
  rw [if_neg (by intro hx; subst hx; have : (Char.ofNat 12).toNat = 12 := rfl; omega)]
  rw [if_neg (by omega)]

theorem jsonQuote_safe_data (k : String) (h : ∀ c ∈ k.data, safeKeyChar c = true) :
    (jsonQuote k).data = '"' :: k.data ++ ['"'] := by
  show '"' :: (k.data.map escSeq).flatten ++ ['"'] = '"' :: k.data ++ ['"']
  have : ∀ l : List Char, (∀ c ∈ l, safeKeyChar c = true) →
      (l.map escSeq).flatten = l := by
    intro l
    induction l with
    | nil => intro _; rfl
    | cons x xs ih =>
      intro hl
      simp only [List.map_cons, List.flatten_cons, escSeq_safe x (hl x (by simp)),
        ih (fun c hc => hl c (by simp [hc]))]
      rfl
  rw [this k.data h]


/-- The key as the pretty post-pass emits it: bare when its first character
is an identifier start, quoted otherwise. -/
def keyTokenPretty (k : String) : String :=
  if (match k.data with | c :: _ => identStart c | [] => false) then k
  else "\"" ++ k ++ "\""

/-- Minified members as the regex pass leaves them: every key bare. -/
def minifiedMembers : List (String × Int) → String
  | [] => ""
  | [(k, n)] => k ++ ":" ++ toString n
  | (k, n) :: tl => k ++ ":" ++ toString n ++ "," ++ minifiedMembers tl

theorem digitChar_isDigit (m : Nat) (h : m < 10) :
    isDigit (Nat.digitChar m) = true := by
  interval_cases m <;> decide

theorem toDigitsCore_digits :
    ∀ (f n : Nat) (acc : List Char), (∀ c ∈ acc, isDigit c = true) →
      ∀ c ∈ Nat.toDigitsCore 10 f n acc, isDigit c = true := by
  intro f
  induction f with
  | zero => intro n acc hacc; simpa [Nat.toDigitsCore] using hacc
  | succ f ih =>
    intro n acc hacc c hc
    simp only [Nat.toDigitsCore] at hc
    by_cases h0 : n / 10 = 0
    · rw [if_pos h0] at hc
      rcases List.mem_cons.mp hc with rfl | hmem
      · exact digitChar_isDigit _ (Nat.mod_lt n (by omega))
      · exact hacc c hmem
    · rw [if_neg h0] at hc
      refine ih (n / 10) (Nat.digitChar (n % 10) :: acc) ?_ c hc
      intro d hd
      rcases List.mem_cons.mp hd with rfl | hmem
      · exact digitChar_isDigit _ (Nat.mod_lt n (by omega))
      · exact hacc d hmem

theorem intToString_chars (n : Int) :
    ∀ c ∈ (toString n).data, (isDigit c || c == '-') = true := by
  intro c hc
  have hnat : ∀ m : Nat, ∀ d ∈ (Nat.repr m).data, isDigit d = true := by
    intro m d hd
    have he : (Nat.repr m).data = Nat.toDigitsCore 10 (m + 1) m [] := rfl
    rw [he] at hd
    exact toDigitsCore_digits (m + 1) m [] (by simp) d hd
  cases n with
  | ofNat m =>
    have he : (toString (Int.ofNat m)).data = (Nat.repr m).data := rfl
    rw [he] at hc
    simp [hnat m c hc]
  | negSucc m =>
    have he : (toString (Int.negSucc m)).data = '-' :: (Nat.repr (m + 1)).data := rfl
    rw [he] at hc
    rcases List.mem_cons.mp hc with rfl | hmem
    · simp
    · simp [hnat (m + 1) c hmem]

theorem valChar_props (c : Char) (h : (isDigit c || c == '-') = true) :
    safeKeyChar c = true ∧ c ≠ ',' ∧ c ≠ '\n' := by
  rcases Bool.or_eq_true_iff.mp h with hd | hm
  · simp only [isDigit, Bool.and_eq_true, decide_eq_true_eq] at hd
    refine ⟨?_, ?_, ?_⟩
    · simp only [safeKeyChar, Bool.and_eq_true, Bool.not_eq_true', beq_eq_false_iff_ne,
        decide_eq_true_eq]
      refine ⟨⟨?_, ?_⟩, by omega⟩
      · intro h2; subst h2
        have : ('"').toNat = 34 := rfl
        omega
      · intro h2; subst h2
        have : ('\\').toNat = 92 := rfl
        omega
    · intro h2; subst h2
      have : (',').toNat = 44 := rfl
      omega
    · intro h2; subst h2
      have : ('\n').toNat = 10 := rfl
      omega
  · have hc : c = '-' := eq_of_beq hm
    subst hc
    exact ⟨by decide, by decide, by decide⟩

theorem valChars_ne_quote (n : Int) : ∀ c ∈ (toString n).data, c ≠ '"' := by
  intro c hc
  exact (safeKeyChar_spec c (valChar_props c (intToString_chars n c hc)).1).1

theorem minify_members_walk :
    ∀ ms : List (String × Int), ms ≠ [] →
      (∀ kv ∈ ms, kv.1 ≠ "" ∧ ∀ c ∈ kv.1.data, safeKeyChar c = true) →
      ∀ rest : List Char,
        minifyKeys ((jsonCompactMembers
            (ms.map fun kv => (kv.1, Value.vNum kv.2))).data ++ rest) =
          (minifiedMembers ms).data ++ minifyKeys rest := by
  intro ms
  induction ms with
  | nil => intro h; exact absurd rfl h
  | cons kv tl ih =>
    intro _ hsafe rest
    obtain ⟨k, n⟩ := kv
    have hk := hsafe (k, n) (by simp)
    have hkne : k.data ≠ [] := by
      intro hd
      exact hk.1 (by cases k with | mk d => simp at hd; simp [hd])
    have hkq : ∀ c ∈ k.data, c ≠ '"' := fun c hc =>
      (safeKeyChar_spec c (hk.2 c hc)).1
    cases tl with
    | nil =>
      have hshape : (jsonCompactMembers
          ([(k, n)].map fun kv => (kv.1, Value.vNum kv.2))).data =
          ((jsonQuote k).data ++ [':']) ++ (toString n).data := rfl
      rw [hshape, jsonQuote_safe_data k hk.2]
      have hassoc : ((('"' :: k.data ++ ['"']) ++ [':']) ++ (toString n).data) ++ rest =
          ('"' :: k.data) ++ ('"' :: ':' :: ((toString n).data ++ rest)) := by
        simp [List.append_assoc]
      rw [hassoc, minifyKeys_key k.data _ hkne hkq,
        minifyKeys_seg (toString n).data rest (valChars_ne_quote n)]
      show k.data ++ ':' :: ((toString n).data ++ minifyKeys rest) =
        (k ++ ":" ++ toString n).data ++ minifyKeys rest
      have hdata : (k ++ ":" ++ toString n).data =
          (k.data ++ [':']) ++ (toString n).data := rfl
      rw [hdata]
      simp [List.append_assoc]
    | cons kv2 tl2 =>
      have hshape : (jsonCompactMembers
          (((k, n) :: kv2 :: tl2).map fun kv => (kv.1, Value.vNum kv.2))).data =
          ((((jsonQuote k).data ++ [':']) ++ (toString n).data) ++ [',']) ++
            (jsonCompactMembers ((kv2 :: tl2).map fun kv =>
              (kv.1, Value.vNum kv.2))).data := rfl
      rw [hshape, jsonQuote_safe_data k hk.2]
      have hassoc : (((((('"' :: k.data ++ ['"'])) ++ [':']) ++ (toString n).data) ++ [',']) ++
            (jsonCompactMembers ((kv2 :: tl2).map fun kv =>
              (kv.1, Value.vNum kv.2))).data) ++ rest =
          ('"' :: k.data) ++ ('"' :: ':' :: ((toString n).data ++ ',' ::
            ((jsonCompactMembers ((kv2 :: tl2).map fun kv =>
              (kv.1, Value.vNum kv.2))).data ++ rest))) := by
        simp [List.append_assoc]
      rw [hassoc, minifyKeys_key k.data _ hkne hkq,
        minifyKeys_seg (toString n).data _ (valChars_ne_quote n),
        minifyKeys_cons ',' _ (by decide),
        ih (by simp) (fun kv hkv => hsafe kv (by simp [hkv])) rest]
      show k.data ++ ':' :: ((toString n).data ++ ',' ::
          ((minifiedMembers (kv2 :: tl2)).data ++ minifyKeys rest)) =
        (k ++ ":" ++ toString n ++ "," ++ minifiedMembers (kv2 :: tl2)).data ++
          minifyKeys rest
      have hdata : (k ++ ":" ++ toString n ++ "," ++ minifiedMembers (kv2 :: tl2)).data =
          (((k.data ++ [':']) ++ (toString n).data) ++ [',']) ++
            (minifiedMembers (kv2 :: tl2)).data := rfl
      rw [hdata]
      simp [List.append_assoc]



theorem posLoop_safe_noComma (xs : List Char) :
    ∀ (rest : List Char) (s : Bool),
      (∀ c ∈ xs, safeKeyChar c = true ∧ c ≠ ',') →
      posLoop (xs ++ rest) s false = xs ++ posLoop rest s false := by
  induction xs with
  | nil => intro rest s _; rfl
  | cons x xs2 ih =>
    intro rest s h
    obtain ⟨hsafe, hcomma⟩ := h x (by simp)
    obtain ⟨hq, hb, _⟩ := safeKeyChar_spec x hsafe
    simp only [List.cons_append, posLoop, if_neg hb,
      beq_eq_false_iff_ne.mpr hq, beq_eq_false_iff_ne.mpr hcomma,
      Bool.false_and, Bool.and_false, if_neg (by simp : ¬(false = true))]
    rw [show xs2.append rest = xs2 ++ rest from rfl,
      ih rest s (fun c hc => h c (by simp [hc]))]


theorem posLoop_key_seg (xs : List Char) :
    ∀ (rest : List Char) (s : Bool),
      (∀ c ∈ xs, safeKeyChar c = true) →
      rest.head? = some '"' →
      posLoop (xs ++ rest) s false = xs ++ posLoop rest s false := by
  induction xs with
  | nil => intro rest s _ _; rfl
  | cons x xs2 ih =>
    intro rest s h hhead
    obtain ⟨hq, hb, hge⟩ := safeKeyChar_spec x (h x (by simp))
    have hnext : ((xs2 ++ rest).head? == some '\n') = false := by
      cases xs2 with
      | nil =>
        simp only [List.nil_append, hhead]
        decide
      | cons y ys =>
        obtain ⟨_, _, hy⟩ := safeKeyChar_spec y (h y (by simp))
        simp only [List.cons_append, List.head?_cons, beq_eq_false_iff_ne]
        intro hcon
        have : y = '\n' := by simpa using hcon
        subst this
        have : ('\n').toNat = 10 := rfl
        omega
    simp only [List.cons_append, posLoop, if_neg hb,
      beq_eq_false_iff_ne.mpr hq, hnext,
      Bool.false_and, Bool.and_false, if_neg (by simp : ¬(false = true))]
    rw [show xs2.append rest = xs2 ++ rest from rfl,
      ih rest s (fun c hc => h c (by simp [hc])) hhead]
    rw [hnext]
    simp


theorem valChars_safe_noComma (n : Int) :
    ∀ c ∈ (toString n).data, safeKeyChar c = true ∧ c ≠ ',' := by
  intro c hc
  have h := valChar_props c (intToString_chars n c hc)
  exact ⟨h.1, h.2.1⟩

theorem posLoop_comma_nl (rest : List Char) :
    posLoop (',' :: '\n' :: rest) false false = '\n' :: posLoop rest false false := by
  conv_lhs => rw [posLoop]
  norm_num
  rw [if_neg (by decide), if_neg (by decide)]
  conv_lhs => rw [posLoop]
  norm_num
  rw [if_neg (by decide), if_neg (fun h => by simpa using h.1),
    if_neg (fun h => by simpa using h.1)]



theorem posLoop_line (k : String) (n : Int) (rest : List Char)
    (hne : k.data ≠ []) (hsafe : ∀ c ∈ k.data, safeKeyChar c = true) :
    posLoop ('"' :: (k.data ++ ('"' :: ':' :: ' ' ::
        ((toString n).data ++ rest)))) false false =
      (keyTokenPretty k).data ++
        (':' :: ' ' :: ((toString n).data ++ posLoop rest false false)) := by
  obtain ⟨kh, kt, hk⟩ : ∃ kh kt, k.data = kh :: kt := by
    cases hd : k.data with
    | nil => exact absurd hd hne
    | cons a b => exact ⟨a, b, rfl⟩
  have htail : posLoop (':' :: ' ' :: ((toString n).data ++ rest)) false false =
      ':' :: ' ' :: ((toString n).data ++ posLoop rest false false) := by
    have h1 := posLoop_safe_noComma (':' :: ' ' :: (toString n).data)
      rest false (by
        intro c hc
        rcases List.mem_cons.mp hc with rfl | hc2
        · exact ⟨by decide, by decide⟩
        rcases List.mem_cons.mp hc2 with rfl | hc3
        · exact ⟨by decide, by decide⟩
        · exact valChars_safe_noComma n c hc3)
    simpa using h1
  have hclose : posLoop ('"' :: ':' :: ' ' :: ((toString n).data ++ rest)) true false =
      ':' :: ' ' :: ((toString n).data ++ posLoop rest false false) := by
    conv_lhs => rw [posLoop]
    norm_num
    rw [if_neg (by decide), htail]
  by_cases hid : identStart kh = true
  · have hkey : keyTokenPretty k = k := by
      unfold keyTokenPretty
      rw [hk]
      simp [hid]
    rw [hkey, hk]
    conv_lhs => rw [posLoop]
    norm_num [hid]
    rw [if_neg (by decide)]
    show posLoop ((kh :: kt) ++ ('"' :: ':' :: ' ' :: ((toString n).data ++ rest)))
        true false =
      (kh :: kt) ++ (':' :: ' ' :: ((toString n).data ++ posLoop rest false false))
    rw [posLoop_key_seg (kh :: kt)
      ('"' :: ':' :: ' ' :: ((toString n).data ++ rest)) true
      (by rw [← hk]; exact hsafe) rfl]
    rw [hclose]
  · have hkey : (keyTokenPretty k).data = '"' :: (k.data ++ ['"']) := by
      unfold keyTokenPretty
      rw [hk]
      simp only [hid, Bool.false_eq_true, if_false]
      show ('"' :: (k.data ++ ['"']) : List Char) = '"' :: (kh :: kt ++ ['"'])
      rw [hk]
    have hclose2 : posLoop ('"' :: ':' :: ' ' :: ((toString n).data ++ rest))
        false false =
        '"' :: ':' :: ' ' :: ((toString n).data ++ posLoop rest false false) := by
      conv_lhs => rw [posLoop]
      norm_num
      rw [if_neg (by decide), if_neg (by decide), if_neg (by decide), htail]
    rw [hkey, hk]
    conv_lhs => rw [posLoop]
    norm_num [hid]
    rw [if_neg (by decide), if_neg (fun h => by simpa using h.1)]
    have hseg := posLoop_key_seg (kh :: kt)
      ('"' :: ':' :: ' ' :: ((toString n).data ++ rest)) false
      (by rw [← hk]; exact hsafe) rfl
    rw [show kh :: (kt ++ ('"' :: ':' :: ' ' :: ((toString n).data ++ rest))) =
        (kh :: kt) ++ ('"' :: ':' :: ' ' :: ((toString n).data ++ rest)) from rfl,
      hseg, hclose2]
    simp [List.append_assoc]



/-- Pretty members as the post-pass emits them: indent, key (bare when its
first character is an identifier start), colon-space, value, newline. -/
def prettyMembers : List (String × Int) → String
  | [] => ""
  | (k, n) :: tl =>
    "  " ++ keyTokenPretty k ++ ": " ++ toString n ++ "\n" ++ prettyMembers tl

theorem pretty_members_walk :
    ∀ ms : List (String × Int), ms ≠ [] →
      (∀ kv ∈ ms, kv.1 ≠ "" ∧ ∀ c ∈ kv.1.data, safeKeyChar c = true) →
      posLoop ((jsonPrettyMembers (ms.map fun kv => (kv.1, Value.vNum kv.2)) 1).data
          ++ '\n' :: '\x7d' :: []) false false =
        (prettyMembers ms).data ++ '\x7d' :: [] := by
  intro ms
  induction ms with
  | nil => intro h; exact absurd rfl h
  | cons kv tl ih =>
    intro _ hsafe
    obtain ⟨k, n⟩ := kv
    have hk := hsafe (k, n) (by simp)
    have hkne : k.data ≠ [] := by
      intro hd
      exact hk.1 (by cases k with | mk d => simp at hd; simp [hd])
    cases tl with
    | nil =>
      have hshape : (jsonPrettyMembers
          ([(k, n)].map fun kv => (kv.1, Value.vNum kv.2)) 1).data =
          ((([' ', ' '] ++ (jsonQuote k).data) ++ [':', ' ']) ++ (toString n).data) := rfl
      rw [hshape, jsonQuote_safe_data k hk.2]
      have hassoc : ((([' ', ' '] ++ ('"' :: k.data ++ ['"'])) ++ [':', ' ']) ++
            (toString n).data) ++ '\n' :: '\x7d' :: [] =
          [' ', ' '] ++ ('"' :: (k.data ++ ('"' :: ':' :: ' ' ::
            ((toString n).data ++ ('\n' :: '\x7d' :: []))))) := by
        simp [List.append_assoc]
      have hrhs : (prettyMembers [(k, n)]).data =
          ((((([' ', ' '] ++ (keyTokenPretty k).data) ++ [':', ' ']) ++
            (toString n).data) ++ ['\n']) ++ ([] : List Char)) := rfl
      rw [hassoc,
        posLoop_safe_noComma [' ', ' '] _ false (by intro c hc; fin_cases hc <;>
          exact ⟨by decide, by decide⟩),
        posLoop_line k n ('\n' :: '\x7d' :: []) hkne hk.2,
        show posLoop ['\n', '\x7d'] false false = ['\n', '\x7d'] from rfl,
        hrhs]
      simp [List.append_assoc]
    | cons kv2 tl2 =>
      have hshape : (jsonPrettyMembers
          (((k, n) :: kv2 :: tl2).map fun kv => (kv.1, Value.vNum kv.2)) 1).data =
          ((((([' ', ' '] ++ (jsonQuote k).data) ++ [':', ' ']) ++
            (toString n).data) ++ [',', '\n']) ++
            (jsonPrettyMembers ((kv2 :: tl2).map fun kv =>
              (kv.1, Value.vNum kv.2)) 1).data) := rfl
      rw [hshape, jsonQuote_safe_data k hk.2]
      have hassoc : (((((([' ', ' '] ++ ('"' :: k.data ++ ['"'])) ++ [':', ' ']) ++
            (toString n).data) ++ [',', '\n']) ++
            (jsonPrettyMembers ((kv2 :: tl2).map fun kv =>
              (kv.1, Value.vNum kv.2)) 1).data) ++ '\n' :: '\x7d' :: []) =
          [' ', ' '] ++ ('"' :: (k.data ++ ('"' :: ':' :: ' ' ::
            ((toString n).data ++ (',' :: '\n' ::
              ((jsonPrettyMembers ((kv2 :: tl2).map fun kv =>
                (kv.1, Value.vNum kv.2)) 1).data ++ '\n' :: '\x7d' :: [])))))) := by
        simp [List.append_assoc]
      rw [hassoc,
        posLoop_safe_noComma [' ', ' '] _ false (by intro c hc; fin_cases hc <;>
          exact ⟨by decide, by decide⟩),
        posLoop_line k n _ hkne hk.2,
        posLoop_comma_nl,
        ih (by simp) (fun kv hkv => hsafe kv (by simp [hkv]))]
      have hrhs : (prettyMembers ((k, n) :: kv2 :: tl2)).data =
          (((([' ', ' '] ++ (keyTokenPretty k).data) ++ [':', ' ']) ++
            (toString n).data) ++ ['\n']) ++ (prettyMembers (kv2 :: tl2)).data := rfl
      rw [hrhs]
      simp [List.append_assoc]



theorem posLoop_plain (c : Char) (rest : List Char) (s : Bool)
    (h1 : c ≠ '\\') (h2 : c ≠ '"') (h3 : c ≠ ',') :
    posLoop (c :: rest) s false = c :: posLoop rest s false := by
  conv_lhs => rw [posLoop]
  rw [if_neg (by simp), if_neg h1]
  have hq : (c == '"') = false := beq_eq_false_iff_ne.mpr h2
  have hcm : (c == ',') = false := beq_eq_false_iff_ne.mpr h3
  simp only [hq, hcm, Bool.false_and, Bool.and_false]
  rw [if_neg (by simp), if_neg (by simp), if_neg (by simp)]

theorem posLoop_open (rest : List Char) :
    posLoop ('\x7b' :: '\n' :: rest) false false =
      '\x7b' :: '\n' :: posLoop rest false false := by
  rw [posLoop_plain _ _ _ (by decide) (by decide) (by decide),
    posLoop_plain _ _ _ (by decide) (by decide) (by decide)]

/-- Claim C7, amended behaviour, on flat objects with integer values and
non-empty keys free of quotes, backslashes and control characters: in
minified mode every key is emitted unquoted regardless of the identifier
grammar, and in non-minified mode a key is emitted unquoted exactly when
its first character matches `[A-Za-z_$]` — the rest of the key is never
checked — and quoted otherwise. -/
theorem c7_key_quoting_flat_objects :
    ∀ ms : List (String × Int), ms ≠ [] →
      (∀ kv ∈ ms, kv.1 ≠ "" ∧ ∀ c ∈ kv.1.data, safeKeyChar c = true) →
      stringify (Value.vObj (ms.map fun kv => (kv.1, Value.vNum kv.2)))
          { minify := true } =
        "\x7b" ++ minifiedMembers ms ++ "\x7d" ∧
      stringify (Value.vObj (ms.map fun kv => (kv.1, Value.vNum kv.2))) {} =
        "\x7b\n" ++ prettyMembers ms ++ "\x7d" := by
  intro ms hne hsafe
  obtain ⟨kv, tl, rfl⟩ : ∃ kv tl, ms = kv :: tl := by
    cases ms with
    | nil => exact absurd rfl hne
    | cons a b => exact ⟨a, b, rfl⟩
  constructor
  · apply String.ext
    show minifyKeys (jsonCompact
        (Value.vObj ((kv :: tl).map fun kv => (kv.1, Value.vNum kv.2)))).data =
      ("\x7b" ++ minifiedMembers (kv :: tl) ++ "\x7d").data
    have hjson : (jsonCompact
        (Value.vObj ((kv :: tl).map fun kv => (kv.1, Value.vNum kv.2)))).data =
        '\x7b' :: ((jsonCompactMembers
          ((kv :: tl).map fun kv => (kv.1, Value.vNum kv.2))).data ++ ['\x7d']) := rfl
    rw [hjson, minifyKeys_cons _ _ (by decide),
      minify_members_walk (kv :: tl) (by simp) hsafe ['\x7d'],
      show minifyKeys ['\x7d'] = ['\x7d'] from rfl]
    show _ = '\x7b' :: ((minifiedMembers (kv :: tl)).data ++ ['\x7d'])
    rfl
  · apply String.ext
    show posLoop (jsonPretty
        (Value.vObj ((kv :: tl).map fun kv => (kv.1, Value.vNum kv.2))) 0).data
        false false =
      ("\x7b\n" ++ prettyMembers (kv :: tl) ++ "\x7d").data
    have hjson : (jsonPretty
        (Value.vObj ((kv :: tl).map fun kv => (kv.1, Value.vNum kv.2))) 0).data =
        ((('\x7b' :: '\n' :: (jsonPrettyMembers
          ((kv :: tl).map fun kv => (kv.1, Value.vNum kv.2)) 1).data) ++ ['\n']) ++
          ([] : List Char)) ++ ['\x7d'] := rfl
    have hassoc : ((('\x7b' :: '\n' :: (jsonPrettyMembers
          ((kv :: tl).map fun kv => (kv.1, Value.vNum kv.2)) 1).data) ++ ['\n']) ++
          ([] : List Char)) ++ ['\x7d'] =
        '\x7b' :: '\n' :: ((jsonPrettyMembers
          ((kv :: tl).map fun kv => (kv.1, Value.vNum kv.2)) 1).data ++
          '\n' :: '\x7d' :: []) := by
      simp [List.append_assoc]
    rw [hjson, hassoc, posLoop_open,
      pretty_members_walk (kv :: tl) (by simp) hsafe]
    show _ = '\x7b' :: '\n' :: ((prettyMembers (kv :: tl)).data ++ ['\x7d'])
    rfl

/-- Witness for the amended C7 at an object whose first key has a space
and whose second key starts with a digit. -/
theorem c7_witness_concrete :
    stringify (Value.vObj [("a b", Value.vNum 1), ("9x", Value.vNum 2)])
        { minify := true } = "{a b:1,9x:2}" ∧
    stringify (Value.vObj [("a b", Value.vNum 1), ("9x", Value.vNum 2)]) {} =
      "\x7b\n  a b: 1\n  \"9x\": 2\n\x7d" :=
  c7_key_quoting_flat_objects [("a b", 1), ("9x", 2)] (by decide) (by decide)

end TSN


namespace TSN

/-! ## Claim C3: comment transparency

`preprocessTSON` is not string-aware: the block-comment regex matches from
the first `/\x2a` anywhere in the text — inside a string literal included —
to the first `\x2a/`.  The counterexample below exhibits an input whose
only comment lies outside every string literal, yet removing it changes
the parse result.  The positive theorem then proves the corrected claim:
removal of a comment is invisible to `parse` when the comment's delimiters
are the first the regexes can see (no slash elsewhere in the text), the
surrounding pieces lex cleanly, and the text after the comment starts at a
token boundary (leading whitespace, or a newline right after a line
comment).  A line comment's body must avoid every JavaScript line
terminator — `'\\r'` and U+2028/U+2029 included — since the regex match
stops at any of them. -/


theorem lexStr_length_aux (q : Char) :
    ∀ (n : Nat) (l : List Char), l.length ≤ n →
      ∀ s r : List Char, lexStr q l = .ok (s, r) → r.length < l.length := by
  intro n
  induction n with
  | zero =>
    intro l hl s r h
    cases l with
    | nil => simp [lexStr] at h
    | cons c rest => simp at hl
  | succ n ih =>
    intro l hl s r h
    cases l with
    | nil => simp [lexStr] at h
    | cons c rest =>
      simp only [lexStr] at h
      by_cases hb : c = '\\'
      · rw [if_pos hb] at h
        cases rest with
        | nil => simp [lexStrEsc] at h
        | cons c2 rest2 =>
          simp only [lexStrEsc] at h
          cases h2 : lexStr q rest2 with
          | ok pr =>
            obtain ⟨s2, r2⟩ := pr
            rw [h2] at h
            simp at h
            have := ih rest2 (by simp only [List.length_cons] at hl; omega) s2 r2 h2
            obtain ⟨_, _, rfl⟩ := h
            simp only [List.length_cons]
            omega
          | error e => rw [h2] at h; simp at h
      · rw [if_neg hb] at h
        by_cases hq : c = q
        · rw [if_pos hq] at h
          simp at h
          obtain ⟨rfl, rfl⟩ := h
          simp
        · rw [if_neg hq] at h
          by_cases hn : c = '\n'
          · rw [if_pos hn] at h; simp at h
          · rw [if_neg hn] at h
            cases h2 : lexStr q rest with
            | ok pr =>
              obtain ⟨s2, r2⟩ := pr
              rw [h2] at h
              simp at h
              have := ih rest (by simp only [List.length_cons] at hl; omega) s2 r2 h2
              obtain ⟨_, _, rfl⟩ := h
              simp only [List.length_cons]
              omega
            | error e => rw [h2] at h; simp at h

theorem lexStr_length (q : Char) (l s r : List Char)
    (h : lexStr q l = .ok (s, r)) : r.length < l.length :=
  lexStr_length_aux q l.length l (le_refl _) s r h

theorem lexStr_append_aux (q : Char) :
    ∀ (n : Nat) (l : List Char), l.length ≤ n →
      ∀ (s r m : List Char), lexStr q l = .ok (s, r) →
        lexStr q (l ++ m) = .ok (s, r ++ m) := by
  intro n
  induction n with
  | zero =>
    intro l hl s r m h
    cases l with
    | nil => simp [lexStr] at h
    | cons c rest => simp at hl
  | succ n ih =>
    intro l hl s r m h
    cases l with
    | nil => simp [lexStr] at h
    | cons c rest =>
      simp only [lexStr] at h
      rw [List.cons_append]
      simp only [lexStr]
      by_cases hb : c = '\\'
      · rw [if_pos hb] at h ⊢
        cases rest with
        | nil => simp [lexStrEsc] at h
        | cons c2 rest2 =>
          simp only [lexStrEsc] at h
          rw [show (c2 :: rest2) ++ m = c2 :: (rest2 ++ m) from rfl]
          simp only [lexStrEsc]
          cases h2 : lexStr q rest2 with
          | ok pr =>
            obtain ⟨s2, r2⟩ := pr
            rw [h2] at h
            simp at h
            obtain ⟨hs, hr⟩ := h
            subst hs; subst hr
            rw [ih rest2 (by simp only [List.length_cons] at hl; omega) s2 r2 m h2]
          | error e => rw [h2] at h; simp at h
      · rw [if_neg hb] at h ⊢
        by_cases hq : c = q
        · rw [if_pos hq] at h ⊢
          simp at h
          obtain ⟨rfl, rfl⟩ := h
          rfl
        · rw [if_neg hq] at h ⊢
          by_cases hn : c = '\n'
          · rw [if_pos hn] at h; simp at h
          · rw [if_neg hn] at h ⊢
            cases h2 : lexStr q rest with
            | ok pr =>
              obtain ⟨s2, r2⟩ := pr
              rw [h2] at h
              simp at h
              obtain ⟨hs, hr⟩ := h
              subst hs; subst hr
              rw [ih rest (by simp only [List.length_cons] at hl; omega) s2 r2 m h2]
            | error e => rw [h2] at h; simp at h

theorem lexStr_append (q : Char) (l s r m : List Char)
    (h : lexStr q l = .ok (s, r)) : lexStr q (l ++ m) = .ok (s, r ++ m) :=
  lexStr_append_aux q l.length l (le_refl _) s r m h

theorem tok_fuelInv : ∀ (f : Nat) (l : List Char), l.length < f →
    ∀ g, l.length < g → tokenizeF f l = tokenizeF g l := by
  intro f
  induction f with
  | zero => intro l h; omega
  | succ f ih =>
    intro l h g hg
    cases l with
    | nil =>
      cases g with
      | zero => omega
      | succ g => rfl
    | cons c rest =>
      cases g with
      | zero => omega
      | succ g =>
        simp only [List.length_cons] at h hg
        have hd1 : (rest.dropWhile isDigit).length ≤ rest.length :=
          dropWhile_length_le rest
        have hd2 : (rest.dropWhile identCont).length ≤ rest.length :=
          dropWhile_length_le rest
        simp only [tokenizeF]
        cases hl : lexStr c rest with
        | ok pr =>
          obtain ⟨s, r⟩ := pr
          have hr := lexStr_length c rest s r hl
          simp only [ih rest (by omega) g (by omega), ih r (by omega) g (by omega),
            ih (rest.dropWhile isDigit) (by omega) g (by omega),
            ih (rest.dropWhile identCont) (by omega) g (by omega)]
        | error e =>
          simp only [ih rest (by omega) g (by omega),
            ih (rest.dropWhile isDigit) (by omega) g (by omega),
            ih (rest.dropWhile identCont) (by omega) g (by omega)]

theorem tokenizeF_spaces : ∀ (k f : Nat) (l : List Char),
    tokenizeF (k + f) (spaces k ++ l) = tokenizeF f l := by
  intro k
  induction k with
  | zero => intro f l; simp [spaces]
  | succ k ih =>
    intro f l
    have hsp : spaces (k + 1) ++ l = ' ' :: (spaces k ++ l) := by
      simp [spaces, List.replicate_succ]
    rw [hsp, show k + 1 + f = (k + f) + 1 from by omega]
    simp only [tokenizeF]
    rw [if_pos (by decide : isWs ' ' = true)]
    exact ih f l

theorem dropWhile_head_false {p : Char → Bool} :
    ∀ (l : List Char) (d : Char) (t : List Char),
      l.dropWhile p = d :: t → p d = false := by
  intro l
  induction l with
  | nil => intro d t h; simp at h
  | cons a l ih =>
    intro d t h
    rw [List.dropWhile_cons] at h
    by_cases ha : p a
    · rw [if_pos ha] at h; exact ih d t h
    · rw [if_neg ha] at h
      obtain ⟨rfl, rfl⟩ := List.cons.inj h
      exact Bool.eq_false_iff.mpr ha

theorem takeWhile_stop_append {p : Char → Bool} :
    ∀ (l m : List Char) (d : Char) (t : List Char),
      l.dropWhile p = d :: t →
      (l ++ m).takeWhile p = l.takeWhile p ∧
        (l ++ m).dropWhile p = l.dropWhile p ++ m := by
  intro l
  induction l with
  | nil => intro m d t h; simp at h
  | cons a l ih =>
    intro m d t h
    rw [List.dropWhile_cons] at h
    by_cases ha : p a
    · rw [if_pos ha] at h
      obtain ⟨h1, h2⟩ := ih m d t h
      constructor
      · simp [List.takeWhile_cons, ha, h1]
      · simp [List.dropWhile_cons, ha, h2]
    · rw [if_neg ha] at h
      constructor
      · simp [List.takeWhile_cons, ha]
      · simp [List.dropWhile_cons, ha]

theorem dropWhile_nil_all {p : Char → Bool} :
    ∀ (l : List Char), l.dropWhile p = [] → (∀ c ∈ l, p c = true) ∧ l.takeWhile p = l := by
  intro l
  induction l with
  | nil => intro _; exact ⟨by simp, rfl⟩
  | cons a l ih =>
    intro h
    rw [List.dropWhile_cons] at h
    by_cases ha : p a
    · rw [if_pos ha] at h
      obtain ⟨h1, h2⟩ := ih h
      refine ⟨?_, ?_⟩
      · intro c hc
        rcases List.mem_cons.mp hc with rfl | hc
        · exact ha
        · exact h1 c hc
      · rw [List.takeWhile_cons, if_pos ha, h2]
    · rw [if_neg ha] at h
      simp at h
-- whitespace is outside every token-continuation class
theorem ws_not_cont (c : Char) (h : isWs c = true) :
    identCont c = false ∧ c ≠ '.' ∧ isDigit c = false := by
  simp only [isWs, Bool.or_eq_true, beq_iff_eq] at h
  rcases h with ((rfl | rfl) | rfl) | rfl <;> refine ⟨by decide, by decide, by decide⟩

theorem head?_append_some (l m : List Char) (d : Char) (h : l.head? = some d) :
    (l ++ m).head? = some d := by
  cases l with
  | nil => simp at h
  | cons a t => simpa using h

theorem tok_append_aux : ∀ (n : Nat) (l : List Char) (mc : Char) (mrest : List Char)
    (T1 T2 : List Tok), l.length ≤ n → isWs mc = true →
    tokenize l = .ok T1 → tokenize (mc :: mrest) = .ok T2 →
    tokenize (l ++ mc :: mrest) = .ok (T1 ++ T2) := by
  intro n
  induction n with
  | zero =>
    intro l mc mrest T1 T2 hl hw h1 h2
    have hnil : l = [] := List.length_eq_zero.mp (Nat.le_zero.mp hl)
    subst hnil
    have h0 : (Except.ok [] : Except String (List Tok)) = .ok T1 := h1
    simp only [Except.ok.injEq] at h0
    subst h0
    simpa using h2
  | succ n ih =>
    intro l mc mrest T1 T2 hl hw h1 h2
    cases l with
    | nil =>
      have h0 : (Except.ok [] : Except String (List Tok)) = .ok T1 := h1
      simp only [Except.ok.injEq] at h0
      subst h0
      simpa using h2
    | cons c rest =>
      simp only [List.length_cons] at hl
      have h1' : tokenizeF (rest.length + 1 + 1) (c :: rest) = .ok T1 := h1
      rw [List.cons_append]
      show tokenizeF ((rest ++ mc :: mrest).length + 1 + 1) (c :: (rest ++ mc :: mrest)) =
        .ok (T1 ++ T2)
      simp only [tokenizeF] at h1' ⊢
      by_cases b1 : isWs c
      · rw [if_pos b1] at h1' ⊢
        exact ih rest mc mrest T1 T2 (by omega) hw h1' h2
      · rw [if_neg b1] at h1' ⊢
        by_cases b2 : c = '{'
        · rw [if_pos b2] at h1' ⊢
          rw [show tokenizeF (rest.length + 1) rest = tokenize rest from rfl] at h1'
          rw [show tokenizeF ((rest ++ mc :: mrest).length + 1) (rest ++ mc :: mrest) =
            tokenize (rest ++ mc :: mrest) from rfl]
          cases ht : tokenize rest with
          | error e => rw [ht] at h1'; simp [Except.map] at h1'
          | ok T1' =>
            rw [ht] at h1'
            simp only [Except.map, Except.ok.injEq] at h1'
            subst h1'
            rw [ih rest mc mrest T1' T2 (by omega) hw ht h2]
            simp [Except.map]
        · rw [if_neg b2] at h1' ⊢
          by_cases b3 : c = '}'
          · rw [if_pos b3] at h1' ⊢
            rw [show tokenizeF (rest.length + 1) rest = tokenize rest from rfl] at h1'
            rw [show tokenizeF ((rest ++ mc :: mrest).length + 1) (rest ++ mc :: mrest) =
              tokenize (rest ++ mc :: mrest) from rfl]
            cases ht : tokenize rest with
            | error e => rw [ht] at h1'; simp [Except.map] at h1'
            | ok T1' =>
              rw [ht] at h1'
              simp only [Except.map, Except.ok.injEq] at h1'
              subst h1'
              rw [ih rest mc mrest T1' T2 (by omega) hw ht h2]
              simp [Except.map]
          · rw [if_neg b3] at h1' ⊢
            by_cases b4 : c = '['
            · rw [if_pos b4] at h1' ⊢
              rw [show tokenizeF (rest.length + 1) rest = tokenize rest from rfl] at h1'
              rw [show tokenizeF ((rest ++ mc :: mrest).length + 1) (rest ++ mc :: mrest) =
                tokenize (rest ++ mc :: mrest) from rfl]
              cases ht : tokenize rest with
              | error e => rw [ht] at h1'; simp [Except.map] at h1'
              | ok T1' =>
                rw [ht] at h1'
                simp only [Except.map, Except.ok.injEq] at h1'
                subst h1'
                rw [ih rest mc mrest T1' T2 (by omega) hw ht h2]
                simp [Except.map]
            · rw [if_neg b4] at h1' ⊢
              by_cases b5 : c = ']'
              · rw [if_pos b5] at h1' ⊢
                rw [show tokenizeF (rest.length + 1) rest = tokenize rest from rfl] at h1'
                rw [show tokenizeF ((rest ++ mc :: mrest).length + 1) (rest ++ mc :: mrest) =
                  tokenize (rest ++ mc :: mrest) from rfl]
                cases ht : tokenize rest with
                | error e => rw [ht] at h1'; simp [Except.map] at h1'
                | ok T1' =>
                  rw [ht] at h1'
                  simp only [Except.map, Except.ok.injEq] at h1'
                  subst h1'
                  rw [ih rest mc mrest T1' T2 (by omega) hw ht h2]
                  simp [Except.map]
              · rw [if_neg b5] at h1' ⊢
                by_cases b6 : c = ':'
                · rw [if_pos b6] at h1' ⊢
                  rw [show tokenizeF (rest.length + 1) rest = tokenize rest from rfl] at h1'
                  rw [show tokenizeF ((rest ++ mc :: mrest).length + 1) (rest ++ mc :: mrest) =
                    tokenize (rest ++ mc :: mrest) from rfl]
                  cases ht : tokenize rest with
                  | error e => rw [ht] at h1'; simp [Except.map] at h1'
                  | ok T1' =>
                    rw [ht] at h1'
                    simp only [Except.map, Except.ok.injEq] at h1'
                    subst h1'
                    rw [ih rest mc mrest T1' T2 (by omega) hw ht h2]
                    simp [Except.map]
                · rw [if_neg b6] at h1' ⊢
                  by_cases b7 : c = ','
                  · rw [if_pos b7] at h1' ⊢
                    rw [show tokenizeF (rest.length + 1) rest = tokenize rest from rfl] at h1'
                    rw [show tokenizeF ((rest ++ mc :: mrest).length + 1) (rest ++ mc :: mrest) =
                      tokenize (rest ++ mc :: mrest) from rfl]
                    cases ht : tokenize rest with
                    | error e => rw [ht] at h1'; simp [Except.map] at h1'
                    | ok T1' =>
                      rw [ht] at h1'
                      simp only [Except.map, Except.ok.injEq] at h1'
                      subst h1'
                      rw [ih rest mc mrest T1' T2 (by omega) hw ht h2]
                      simp [Except.map]
                  · rw [if_neg b7] at h1' ⊢
                    by_cases b8 : c = '"' ∨ c = '\''
                    · rw [if_pos b8] at h1' ⊢
                      cases hlx : lexStr c rest with
                      | error e => rw [hlx] at h1'; simp at h1'
                      | ok pr =>
                        obtain ⟨s, r⟩ := pr
                        have hrlen := lexStr_length c rest s r hlx
                        rw [hlx] at h1'
                        rw [lexStr_append c rest s r (mc :: mrest) hlx]
                        dsimp only [] at h1' ⊢
                        have e1 : tokenizeF (rest.length + 1) r = tokenize r :=
                          tok_fuelInv (rest.length + 1) r (by omega) (r.length + 1) (by omega)
                        have e2 : tokenizeF ((rest ++ mc :: mrest).length + 1)
                            (r ++ mc :: mrest) = tokenize (r ++ mc :: mrest) :=
                          tok_fuelInv _ _
                            (by simp only [List.length_append]; omega) _ (by omega)
                        rw [e1] at h1'
                        rw [e2]
                        cases ht : tokenize r with
                        | error e => rw [ht] at h1'; simp [Except.map] at h1'
                        | ok T1' =>
                          rw [ht] at h1'
                          simp only [Except.map, Except.ok.injEq] at h1'
                          subst h1'
                          rw [ih r mc mrest T1' T2 (by omega) hw ht h2]
                          simp [Except.map]
                    · rw [if_neg b8] at h1' ⊢
                      by_cases b9 : c = '-'
                      · rw [if_pos b9] at h1' ⊢
                        cases hh : rest.head? with
                        | none => rw [hh] at h1'; simp at h1'
                        | some d =>
                          rw [hh] at h1'
                          rw [head?_append_some rest (mc :: mrest) d hh]
                          dsimp only [] at h1' ⊢
                          by_cases hd : isDigit d
                          · rw [if_pos hd] at h1' ⊢
                            cases hstop : rest.dropWhile isDigit with
                            | cons d0 t =>
                              obtain ⟨hstk, hstd⟩ :=
                                takeWhile_stop_append rest (mc :: mrest) d0 t hstop
                              have hlen0 : (d0 :: t).length ≤ rest.length := by
                                rw [← hstop]; exact dropWhile_length_le rest
                              rw [hstop] at h1'
                              rw [hstk, hstd, hstop, List.cons_append]
                              simp only [List.head?_cons] at h1' ⊢
                              by_cases hx : identCont d0 ∨ d0 = '.'
                              · rw [if_pos hx] at h1'; simp at h1'
                              · rw [if_neg hx] at h1' ⊢
                                have e1 : tokenizeF (rest.length + 1) (d0 :: t) =
                                    tokenize (d0 :: t) :=
                                  tok_fuelInv _ _ (by omega) _ (by omega)
                                have e2 : tokenizeF ((rest ++ mc :: mrest).length + 1)
                                    (d0 :: (t ++ mc :: mrest)) =
                                    tokenize (d0 :: (t ++ mc :: mrest)) :=
                                  tok_fuelInv _ _
                                    (by
                                      simp only [List.length_append, List.length_cons]
                                      simp only [List.length_cons] at hlen0
                                      omega) _ (by omega)
                                rw [e1] at h1'
                                rw [e2]
                                cases ht : tokenize (d0 :: t) with
                                | error e => rw [ht] at h1'; simp [Except.map] at h1'
                                | ok T1' =>
                                  rw [ht] at h1'
                                  simp only [Except.map, Except.ok.injEq] at h1'
                                  subst h1'
                                  rw [show (d0 :: (t ++ mc :: mrest)) =
                                    (d0 :: t) ++ mc :: mrest from rfl]
                                  rw [ih (d0 :: t) mc mrest T1' T2 (by omega) hw ht h2]
                                  simp [Except.map]
                            | nil =>
                              obtain ⟨hall, htake⟩ := dropWhile_nil_all rest hstop
                              have hmc := ws_not_cont mc hw
                              rw [hstop] at h1'
                              simp only [List.head?_nil] at h1'
                              rw [show tokenizeF (rest.length + 1) ([] : List Char) =
                                .ok [] from rfl] at h1'
                              simp only [Except.map, Except.ok.injEq] at h1'
                              subst h1'
                              rw [all_takeWhile_append (mc :: mrest) hall,
                                all_dropWhile_append (mc :: mrest) hall]
                              rw [show (mc :: mrest).takeWhile isDigit = [] from by
                                rw [List.takeWhile_cons, if_neg (by simp [hmc.2.2])]]
                              rw [show (mc :: mrest).dropWhile isDigit = mc :: mrest from by
                                rw [List.dropWhile_cons, if_neg (by simp [hmc.2.2])]]
                              simp only [List.head?_cons]
                              rw [if_neg (by simp [hmc.1, hmc.2.1])]
                              have e2 : tokenizeF ((rest ++ mc :: mrest).length + 1)
                                  (mc :: mrest) = tokenize (mc :: mrest) :=
                                tok_fuelInv _ _
                                  (by simp only [List.length_append, List.length_cons]
                                      omega) _ (by omega)
                              rw [e2, h2]
                              simp [Except.map, htake]
                          · rw [if_neg hd] at h1'; simp at h1'
                      · rw [if_neg b9] at h1' ⊢
                        by_cases b10 : isDigit c
                        · rw [if_pos b10] at h1' ⊢
                          cases hstop : rest.dropWhile isDigit with
                          | cons d0 t =>
                            obtain ⟨hstk, hstd⟩ :=
                              takeWhile_stop_append rest (mc :: mrest) d0 t hstop
                            have hlen0 : (d0 :: t).length ≤ rest.length := by
                              rw [← hstop]; exact dropWhile_length_le rest
                            rw [hstop] at h1'
                            rw [hstk, hstd, hstop, List.cons_append]
                            simp only [List.head?_cons] at h1' ⊢
                            by_cases hx : identCont d0 ∨ d0 = '.'
                            · rw [if_pos hx] at h1'; simp at h1'
                            · rw [if_neg hx] at h1' ⊢
                              have e1 : tokenizeF (rest.length + 1) (d0 :: t) =
                                  tokenize (d0 :: t) :=
                                tok_fuelInv _ _ (by omega) _ (by omega)
                              have e2 : tokenizeF ((rest ++ mc :: mrest).length + 1)
                                  (d0 :: (t ++ mc :: mrest)) =
                                  tokenize (d0 :: (t ++ mc :: mrest)) :=
                                tok_fuelInv _ _
                                  (by
                                    simp only [List.length_append, List.length_cons]
                                    simp only [List.length_cons] at hlen0
                                    omega) _ (by omega)
                              rw [e1] at h1'
                              rw [e2]
                              cases ht : tokenize (d0 :: t) with
                              | error e => rw [ht] at h1'; simp [Except.map] at h1'
                              | ok T1' =>
                                rw [ht] at h1'
                                simp only [Except.map, Except.ok.injEq] at h1'
                                subst h1'
                                rw [show (d0 :: (t ++ mc :: mrest)) =
                                  (d0 :: t) ++ mc :: mrest from rfl]
                                rw [ih (d0 :: t) mc mrest T1' T2 (by omega) hw ht h2]
                                simp [Except.map]
                          | nil =>
                            obtain ⟨hall, htake⟩ := dropWhile_nil_all rest hstop
                            have hmc := ws_not_cont mc hw
                            rw [hstop] at h1'
                            simp only [List.head?_nil] at h1'
                            rw [show tokenizeF (rest.length + 1) ([] : List Char) =
                              .ok [] from rfl] at h1'
                            simp only [Except.map, Except.ok.injEq] at h1'
                            subst h1'
                            rw [all_takeWhile_append (mc :: mrest) hall,
                              all_dropWhile_append (mc :: mrest) hall]
                            rw [show (mc :: mrest).takeWhile isDigit = [] from by
                              rw [List.takeWhile_cons, if_neg (by simp [hmc.2.2])]]
                            rw [show (mc :: mrest).dropWhile isDigit = mc :: mrest from by
                              rw [List.dropWhile_cons, if_neg (by simp [hmc.2.2])]]
                            simp only [List.head?_cons]
                            rw [if_neg (by simp [hmc.1, hmc.2.1])]
                            have e2 : tokenizeF ((rest ++ mc :: mrest).length + 1)
                                (mc :: mrest) = tokenize (mc :: mrest) :=
                              tok_fuelInv _ _
                                (by simp only [List.length_append, List.length_cons]
                                    omega) _ (by omega)
                            rw [e2, h2]
                            simp [Except.map, htake]
                        · rw [if_neg b10] at h1' ⊢
                          by_cases b11 : identStart c
                          · rw [if_pos b11] at h1' ⊢
                            cases hstop : rest.dropWhile identCont with
                            | cons d0 t =>
                              obtain ⟨hstk, hstd⟩ :=
                                takeWhile_stop_append rest (mc :: mrest) d0 t hstop
                              have hlen0 : (d0 :: t).length ≤ rest.length := by
                                rw [← hstop]; exact dropWhile_length_le rest
                              rw [hstop] at h1'
                              rw [hstk, hstd, hstop, List.cons_append]
                              have e1 : tokenizeF (rest.length + 1) (d0 :: t) =
                                  tokenize (d0 :: t) :=
                                tok_fuelInv _ _ (by omega) _ (by omega)
                              have e2 : tokenizeF ((rest ++ mc :: mrest).length + 1)
                                  (d0 :: (t ++ mc :: mrest)) =
                                  tokenize (d0 :: (t ++ mc :: mrest)) :=
                                tok_fuelInv _ _
                                  (by
                                    simp only [List.length_append, List.length_cons]
                                    simp only [List.length_cons] at hlen0
                                    omega) _ (by omega)
                              rw [e1] at h1'
                              rw [e2]
                              cases ht : tokenize (d0 :: t) with
                              | error e => rw [ht] at h1'; simp [Except.map] at h1'
                              | ok T1' =>
                                rw [ht] at h1'
                                simp only [Except.map, Except.ok.injEq] at h1'
                                subst h1'
                                rw [show (d0 :: (t ++ mc :: mrest)) =
                                  (d0 :: t) ++ mc :: mrest from rfl]
                                rw [ih (d0 :: t) mc mrest T1' T2 (by omega) hw ht h2]
                                simp [Except.map]
                            | nil =>
                              obtain ⟨hall, htake⟩ := dropWhile_nil_all rest hstop
                              have hmc := ws_not_cont mc hw
                              rw [hstop] at h1'
                              rw [show tokenizeF (rest.length + 1) ([] : List Char) =
                                .ok [] from rfl] at h1'
                              simp only [Except.map, Except.ok.injEq] at h1'
                              subst h1'
                              rw [all_takeWhile_append (mc :: mrest) hall,
                                all_dropWhile_append (mc :: mrest) hall]
                              rw [show (mc :: mrest).takeWhile identCont = [] from by
                                rw [List.takeWhile_cons, if_neg (by simp [hmc.1])]]
                              rw [show (mc :: mrest).dropWhile identCont = mc :: mrest from by
                                rw [List.dropWhile_cons, if_neg (by simp [hmc.1])]]
                              have e2 : tokenizeF ((rest ++ mc :: mrest).length + 1)
                                  (mc :: mrest) = tokenize (mc :: mrest) :=
                                tok_fuelInv _ _
                                  (by simp only [List.length_append, List.length_cons]
                                      omega) _ (by omega)
                              rw [e2, h2]
                              simp [Except.map, htake]
                          · rw [if_neg b11] at h1'
                            simp at h1'

/-- The next text after a token boundary starts with whitespace (or is
empty), so the engine's maximal-munch lexing cannot join tokens across
the boundary. -/
def headWs (l : List Char) : Bool :=
  match l.head? with
  | none => true
  | some c => isWs c

theorem tokenize_append (l m : List Char) (T1 T2 : List Tok)
    (h1 : tokenize l = .ok T1) (h2 : tokenize m = .ok T2) (hw : headWs m = true) :
    tokenize (l ++ m) = .ok (T1 ++ T2) := by
  cases m with
  | nil =>
    have h0 : (Except.ok [] : Except String (List Tok)) = .ok T2 := h2
    simp only [Except.ok.injEq] at h0
    subst h0
    simpa using h1
  | cons mc mrest =>
    have hwmc : isWs mc = true := by simpa [headWs] using hw
    exact tok_append_aux l.length l mc mrest T1 T2 (le_refl _) hwmc h1 h2

theorem tokenize_spaces (k : Nat) (l : List Char) :
    tokenize (spaces k ++ l) = tokenize l := by
  show tokenizeF ((spaces k ++ l).length + 1) (spaces k ++ l) = tokenize l
  rw [show (spaces k ++ l).length + 1 = k + (l.length + 1) from by
    simp [spaces]; omega]
  rw [tokenizeF_spaces k (l.length + 1) l]
  rfl

theorem blockPassF_noSlash : ∀ (f : Nat) (l : List Char),
    (∀ c ∈ l, c ≠ '/') → blockPassF f l = l := by
  intro f
  induction f with
  | zero => intro l _; rfl
  | succ f ih =>
    intro l h
    cases l with
    | nil => rfl
    | cons c rest =>
      simp only [blockPassF]
      rw [if_neg (by
        rintro ⟨rfl, -⟩
        exact h '/' (by simp) rfl)]
      rw [ih rest (fun c hc => h c (by simp [hc]))]

theorem linePassF_noSlash : ∀ (f : Nat) (l : List Char),
    (∀ c ∈ l, c ≠ '/') → linePassF f l = l := by
  intro f
  induction f with
  | zero => intro l _; rfl
  | succ f ih =>
    intro l h
    cases l with
    | nil => rfl
    | cons c rest =>
      simp only [linePassF]
      rw [if_neg (by
        rintro ⟨rfl, -⟩
        exact h '/' (by simp) rfl)]
      rw [ih rest (fun c hc => h c (by simp [hc]))]

theorem blockPassF_pre : ∀ (pre rest : List Char), (∀ c ∈ pre, c ≠ '/') →
    ∀ f, blockPassF (pre.length + f) (pre ++ rest) = pre ++ blockPassF f rest := by
  intro pre
  induction pre with
  | nil => intro rest _ f; simp
  | cons a pre ih =>
    intro rest h f
    rw [List.cons_append,
      show (a :: pre).length + f = (pre.length + f) + 1 from by simp; omega]
    simp only [blockPassF]
    rw [if_neg (by
      rintro ⟨rfl, -⟩
      exact h '/' (by simp) rfl)]
    rw [ih rest (fun c hc => h c (by simp [hc])) f]
    rfl

theorem linePassF_pre : ∀ (pre rest : List Char), (∀ c ∈ pre, c ≠ '/') →
    ∀ f, linePassF (pre.length + f) (pre ++ rest) = pre ++ linePassF f rest := by
  intro pre
  induction pre with
  | nil => intro rest _ f; simp
  | cons a pre ih =>
    intro rest h f
    rw [List.cons_append,
      show (a :: pre).length + f = (pre.length + f) + 1 from by simp; omega]
    simp only [linePassF]
    rw [if_neg (by
      rintro ⟨rfl, -⟩
      exact h '/' (by simp) rfl)]
    rw [ih rest (fun c hc => h c (by simp [hc])) f]
    rfl

theorem closeIdx_append_close : ∀ (x r : List Char), closeIdx x = none →
    closeIdx (x ++ '*' :: '/' :: r) = some x.length := by
  intro x
  induction x with
  | nil =>
    intro r _
    simp [closeIdx]
  | cons c x ih =>
    intro r h
    by_cases hc : c = '*' ∧ x.head? = some '/'
    · simp [closeIdx, hc] at h
    · simp [closeIdx, hc] at h
      have hc' : ¬(c = '*' ∧ (x ++ '*' :: '/' :: r).head? = some '/') := by
        rintro ⟨rfl, hh⟩
        cases x with
        | nil => simp at hh
        | cons y t =>
          simp only [List.cons_append, List.head?_cons] at hh
          exact hc ⟨rfl, by simpa using hh⟩
      rw [List.cons_append]
      simp [closeIdx, hc', ih r h]
      exact fun h1 h2 => hc ⟨h1, h2⟩

theorem nlIdx_none_of_no_term : ∀ (x : List Char), (∀ c ∈ x, isLineTerm c = false) →
    nlIdx x = none := by
  intro x
  induction x with
  | nil => intro _; rfl
  | cons c x ih =>
    intro h
    have hc : isLineTerm c = false := h c (by simp)
    simp [nlIdx, hc, ih (fun c hc => h c (by simp [hc]))]

theorem nlIdx_append_nl : ∀ (x r : List Char), nlIdx x = none →
    nlIdx (x ++ '\n' :: r) = some x.length := by
  intro x
  induction x with
  | nil =>
    intro r _
    simp [nlIdx, isLineTerm]
  | cons c x ih =>
    intro r h
    by_cases hc : isLineTerm c
    · simp [nlIdx, hc] at h
    · simp [nlIdx, hc] at h
      rw [List.cons_append]
      simp [nlIdx, hc, ih r h]

theorem preprocess_noSlash (l : List Char) (h : ∀ c ∈ l, c ≠ '/') :
    preprocessTSON ⟨l⟩ = ⟨l⟩ := by
  show (⟨linePass (blockPass l)⟩ : String) = ⟨l⟩
  have hb : blockPass l = l := blockPassF_noSlash (l.length + 1) l h
  have hl2 : linePass l = l := linePassF_noSlash (l.length + 1) l h
  rw [hb, hl2]

theorem preprocess_block (pre x post : List Char)
    (hpre : ∀ c ∈ pre, c ≠ '/') (hpost : ∀ c ∈ post, c ≠ '/')
    (hx : closeIdx x = none) :
    preprocessTSON ⟨pre ++ ('/' :: '*' :: (x ++ '*' :: '/' :: post))⟩ =
      ⟨pre ++ (spaces (x.length + 4) ++ post)⟩ := by
  have hnos : ∀ c ∈ pre ++ (spaces (x.length + 4) ++ post), c ≠ '/' := by
    intro c hc
    rcases List.mem_append.mp hc with h1 | h2
    · exact hpre c h1
    · rcases List.mem_append.mp h2 with h3 | h4
      · have h5 : c = ' ' := by simpa [spaces] using h3
        subst h5; decide
      · exact hpost c h4
  have hb : blockPassF (pre.length + (x.length + post.length + 5))
      (pre ++ ('/' :: '*' :: (x ++ '*' :: '/' :: post))) =
      pre ++ (spaces (x.length + 4) ++ post) := by
    rw [blockPassF_pre pre _ hpre _]
    congr 1
    rw [show x.length + post.length + 5 = (x.length + post.length + 4) + 1 from by omega]
    simp only [blockPassF]
    rw [if_pos ⟨trivial, rfl⟩]
    simp only [List.tail_cons]
    rw [closeIdx_append_close x post hx]
    dsimp only []
    congr 1
    rw [show (x ++ '*' :: '/' :: post : List Char) = (x ++ ['*', '/']) ++ post from by simp]
    rw [show x.length + 2 = (x ++ ['*', '/']).length from by simp]
    rw [List.drop_left]
    exact blockPassF_noSlash _ post hpost
  show (⟨linePass (blockPass (pre ++ ('/' :: '*' :: (x ++ '*' :: '/' :: post))))⟩ : String) = _
  have hb' : blockPass (pre ++ ('/' :: '*' :: (x ++ '*' :: '/' :: post))) =
      pre ++ (spaces (x.length + 4) ++ post) := by
    show blockPassF ((pre ++ ('/' :: '*' :: (x ++ '*' :: '/' :: post))).length + 1) _ = _
    rw [show (pre ++ ('/' :: '*' :: (x ++ '*' :: '/' :: post))).length + 1 =
      pre.length + (x.length + post.length + 5) from by simp; omega]
    exact hb
  rw [hb']
  rw [show linePass (pre ++ (spaces (x.length + 4) ++ post)) =
      pre ++ (spaces (x.length + 4) ++ post) from linePassF_noSlash _ _ hnos]

theorem preprocess_line (pre x post : List Char)
    (hpre : ∀ c ∈ pre, c ≠ '/') (hpost : ∀ c ∈ post, c ≠ '/')
    (hx : ∀ c ∈ x, c ≠ '/' ∧ isLineTerm c = false) (hxh : x.head? ≠ some '*')
    (hph : post = [] ∨ post.head? = some '\n') :
    preprocessTSON ⟨pre ++ ('/' :: '/' :: (x ++ post))⟩ =
      ⟨pre ++ (spaces (x.length + 2) ++ post)⟩ := by
  have hxp : ∀ c ∈ x ++ post, c ≠ '/' := by
    intro c hc
    rcases List.mem_append.mp hc with h1 | h2
    · exact (hx c h1).1
    · exact hpost c h2
  have hb : blockPassF (pre.length + (x.length + post.length + 3))
      (pre ++ ('/' :: '/' :: (x ++ post))) =
      pre ++ ('/' :: '/' :: (x ++ post)) := by
    rw [blockPassF_pre pre _ hpre _]
    congr 1
    rw [show x.length + post.length + 3 = (x.length + post.length + 2) + 1 from by omega]
    simp only [blockPassF]
    rw [if_neg (by rintro ⟨-, hh⟩; simp at hh)]
    congr 1
    rw [if_neg (by
      rintro ⟨-, hh⟩
      cases x with
      | nil =>
        rcases hph with rfl | hph'
        · simp at hh
        · rw [List.nil_append] at hh
          rw [hph'] at hh
          simp at hh
      | cons y t =>
        simp only [List.cons_append, List.head?_cons] at hh
        exact hxh (by simpa using hh))]
    congr 1
    exact blockPassF_noSlash _ _ hxp
  have hl : linePassF (pre.length + (x.length + post.length + 3))
      (pre ++ ('/' :: '/' :: (x ++ post))) =
      pre ++ (spaces (x.length + 2) ++ post) := by
    rw [linePassF_pre pre _ hpre _]
    congr 1
    rw [show x.length + post.length + 3 = (x.length + post.length + 2) + 1 from by omega]
    simp only [linePassF]
    rw [if_pos ⟨trivial, rfl⟩]
    simp only [List.tail_cons]
    have hnlx : nlIdx x = none := nlIdx_none_of_no_term x (fun c hc => (hx c hc).2)
    rcases hph with rfl | hph'
    · rw [List.append_nil, hnlx]
      simp
    · cases post with
      | nil => simp at hph'
      | cons pc pt =>
        have hpc : pc = '\n' := by simpa using hph'
        subst hpc
        rw [nlIdx_append_nl x pt hnlx]
        dsimp only []
        rw [List.drop_left]
        congr 1
        exact linePassF_noSlash _ _ hpost
  show (⟨linePass (blockPass (pre ++ ('/' :: '/' :: (x ++ post))))⟩ : String) = _
  have hb' : blockPass (pre ++ ('/' :: '/' :: (x ++ post))) =
      pre ++ ('/' :: '/' :: (x ++ post)) := by
    show blockPassF ((pre ++ ('/' :: '/' :: (x ++ post))).length + 1) _ = _
    rw [show (pre ++ ('/' :: '/' :: (x ++ post))).length + 1 =
      pre.length + (x.length + post.length + 3) from by simp; omega]
    exact hb
  have hl' : linePass (pre ++ ('/' :: '/' :: (x ++ post))) =
      pre ++ (spaces (x.length + 2) ++ post) := by
    show linePassF ((pre ++ ('/' :: '/' :: (x ++ post))).length + 1) _ = _
    rw [show (pre ++ ('/' :: '/' :: (x ++ post))).length + 1 =
      pre.length + (x.length + post.length + 3) from by simp; omega]
    exact hl
  rw [hb', hl']

theorem evalJS_tokens_eq (a b : List Char) (T : List Tok)
    (ha : tokenize a = .ok T) (hb : tokenize b = .ok T) : evalJS a = evalJS b := by
  simp only [evalJS]
  rw [ha, hb]

theorem parse_of_evalJS_eq (s s' : String)
    (h : evalJS (preprocessTSON s).data = evalJS (preprocessTSON s').data) :
    parse s none = parse s' none := by
  simp only [parse]
  rw [h]
  cases hv : evalJS (preprocessTSON s').data with
  | error e => simp [createDetailedError]
  | ok v => rfl

/-- Claim C3, corrected: removing a block comment `/\x2a x \x2a/` (body free of
the close delimiter) or a line comment `// x` (body free of slashes and of
line terminators, not starting with `\x2a`, and ending at a newline or at
the end of text) does not change the value produced by `parse`, provided the comment's
slashes are the only ones in the text (so the regexes match the comment
itself) and the text before and after the comment lexes cleanly with the
remainder starting at a token boundary.  The original claim's unrestricted
form is refuted by the companion counterexample. -/
theorem c3_comment_removal (pre x cm post : List Char) (T1 T2 : List Tok)
    (hpre : ∀ c ∈ pre, c ≠ '/') (hpost : ∀ c ∈ post, c ≠ '/')
    (hT1 : tokenize pre = .ok T1) (hT2 : tokenize post = .ok T2)
    (hws : headWs post = true)
    (hcm : (cm = '/' :: '*' :: (x ++ '*' :: '/' :: []) ∧ closeIdx x = none) ∨
           (cm = '/' :: '/' :: x ∧ (∀ c ∈ x, c ≠ '/' ∧ isLineTerm c = false) ∧
             x.head? ≠ some '*' ∧ (post = [] ∨ post.head? = some '\n'))) :
    parse ⟨pre ++ (cm ++ post)⟩ none = parse ⟨pre ++ post⟩ none := by
  have hcomb : ∀ c ∈ pre ++ post, c ≠ '/' := fun c hc =>
    (List.mem_append.mp hc).elim (hpre c) (hpost c)
  apply parse_of_evalJS_eq
  rcases hcm with ⟨rfl, hx⟩ | ⟨rfl, hxc, hxh, hph⟩
  · rw [show pre ++ (('/' :: '*' :: (x ++ '*' :: '/' :: [])) ++ post) =
      pre ++ ('/' :: '*' :: (x ++ '*' :: '/' :: post)) from by simp]
    rw [preprocess_block pre x post hpre hpost hx,
      preprocess_noSlash (pre ++ post) hcomb]
    apply evalJS_tokens_eq _ _ (T1 ++ T2)
    · show tokenize (pre ++ (spaces (x.length + 4) ++ post)) = .ok (T1 ++ T2)
      apply tokenize_append pre _ T1 T2 hT1
      · rw [tokenize_spaces]
        exact hT2
      · rfl
    · exact tokenize_append pre post T1 T2 hT1 hT2 hws
  · rw [show pre ++ (('/' :: '/' :: x) ++ post) =
      pre ++ ('/' :: '/' :: (x ++ post)) from by simp]
    rw [preprocess_line pre x post hpre hpost hxc hxh hph,
      preprocess_noSlash (pre ++ post) hcomb]
    apply evalJS_tokens_eq _ _ (T1 ++ T2)
    · show tokenize (pre ++ (spaces (x.length + 2) ++ post)) = .ok (T1 ++ T2)
      apply tokenize_append pre _ T1 T2 hT1
      · rw [tokenize_spaces]
        exact hT2
      · rfl
    · exact tokenize_append pre post T1 T2 hT1 hT2 hws

/-- Claim C3, counterexample: the text `{a: "/\x2a"} /\x2a c \x2a/` carries its
only comment outside every string literal, yet parsing it fails — the
block-comment regex matches from the `/\x2a` inside the string to the
closing delimiter, leaving an unterminated string — while the same text
with the comment removed parses to the object `{a: "/\x2a"}`. -/
theorem c3_counterexample_instring_marker :
    parse "\x7ba: \"/*\"\x7d /* c */" none =
      .error ⟨"Parse error: Invalid or unexpected token", none, none, none⟩ ∧
    parse "\x7ba: \"/*\"\x7d" none = .ok (.vObj [("a", .vStr "/*")]) :=
  ⟨rfl, rfl⟩

/-- Claim C3, witness: removing the block comment from `[1, /\x2a note \x2a/ 2]`
leaves the parse result unchanged, with every hypothesis of the corrected
claim checked on the concrete input. -/
theorem c3_witness_concrete :
    (∀ c ∈ "[1, ".data, c ≠ '/') ∧ (∀ c ∈ " 2]".data, c ≠ '/') ∧
    tokenize "[1, ".data = .ok [Tok.lbrack, Tok.num 1, Tok.comma] ∧
    tokenize " 2]".data = .ok [Tok.num 2, Tok.rbrack] ∧
    headWs " 2]".data = true ∧
    ("/* note */".data = '/' :: '*' :: (" note ".data ++ '*' :: '/' :: []) ∧
      closeIdx " note ".data = none) ∧
    parse ⟨"[1, ".data ++ ("/* note */".data ++ " 2]".data)⟩ none =
      parse ⟨"[1, ".data ++ " 2]".data⟩ none :=
  ⟨by decide, by decide, rfl, rfl, rfl, ⟨by decide, by decide⟩,
    c3_comment_removal "[1, ".data " note ".data "/* note */".data " 2]".data
      [Tok.lbrack, Tok.num 1, Tok.comma] [Tok.num 2, Tok.rbrack]
      (by decide) (by decide) rfl rfl rfl
      (Or.inl ⟨by decide, by decide⟩)⟩

end TSN
